import Mathlib

/-!
# Verification of the byte-oriented Huffman codec

Shallow embedding of `src/huffman/utils.py` (bit-level I/O and the
frequency-table metadata codec) and `src/huffman/huffman.py` (tree
construction via a binary min-heap, code derivation, compression and
decompression).  Bytes are modelled as `Nat` values (< 256 in genuine
inputs), byte strings as `List Nat`, Python `dict`s as insertion-ordered
association lists, and Python exceptions as `Except String`.
The heap operations mirror the reference implementation of CPython's
`heapq` (`heappush`/`heappop` with `_siftdown`/`_siftup`), which is what
`build_tree_from_freq` calls; `Node.__lt__` compares frequencies only.
-/

namespace Huffman

/-- Python `dict` assignment `d[k] = v`: update the value in place if the
key is present, otherwise append the new binding at the end (insertion
order, as CPython dicts preserve it). -/
def dictInsert {α : Type} (d : List (Nat × α)) (k : Nat) (v : α) : List (Nat × α) :=
  match d with
  | [] => [(k, v)]
  | (k0, v0) :: rest => if k0 = k then (k0, v) :: rest else (k0, v0) :: dictInsert rest k v

/-- Python `d[k]` / `k in d`: first (only) binding of `k`. -/
def dictGet? {α : Type} (d : List (Nat × α)) (k : Nat) : Option α :=
  match d with
  | [] => none
  | (k0, v0) :: rest => if k0 = k then some v0 else dictGet? rest k

/-- Keys of a Python dict, in insertion order. -/
def dictKeys {α : Type} (d : List (Nat × α)) : List Nat := d.map Prod.fst

/-- `sum(d.values())`. -/
def sumValues (d : List (Nat × Nat)) : Nat := d.foldl (fun a p => a + p.2) 0

/-- One step of `collections.Counter(data)`: count one more occurrence of `b`. -/
def counterAdd (d : List (Nat × Nat)) (b : Nat) : List (Nat × Nat) :=
  match d with
  | [] => [(b, 1)]
  | (k, v) :: rest => if k = b then (k, v + 1) :: rest else (k, v) :: counterAdd rest b

/-- `collections.Counter(data)` over a byte string: frequency table in
first-occurrence order. -/
def counter (data : List Nat) : List (Nat × Nat) := data.foldl counterAdd []

/-- Big-endian fixed-width byte encoding, `struct.pack` with `>H` (w = 2)
or `>Q` (w = 8), assuming the range check already done. -/
def toBE : Nat → Nat → List Nat
  | 0, _ => []
  | w + 1, n => ((n >>> (8 * w)) % 256) :: toBE w n

/-- Big-endian byte decoding, `struct.unpack` with `>H` / `>Q`. -/
def fromBE (bs : List Nat) : Nat := bs.foldl (fun a b => a * 256 + b) 0

/-! ## `utils.BitWriter` -/

/-- State of `utils.BitWriter`: the `BytesIO` buffer, the bit accumulator
`acc` and the number `nbits` of pending bits in it. -/
structure BitWriter where
  buffer : List Nat
  acc : Nat
  nbits : Nat
deriving DecidableEq

def BitWriter.init : BitWriter := ⟨[], 0, 0⟩

/-- `BitWriter.write_bit`: shift the bit into the accumulator; each 8th bit
flushes the accumulator as one byte. -/
def BitWriter.write_bit (w : BitWriter) (b : Nat) : BitWriter :=
  let acc := (w.acc <<< 1) ||| (b &&& 1)
  let nbits := w.nbits + 1
  if nbits = 8 then ⟨w.buffer ++ [acc], 0, 0⟩ else ⟨w.buffer, acc, nbits⟩

/-- `BitWriter.write_bytes`: raw bytes appended to the buffer directly. -/
def BitWriter.write_bytes (w : BitWriter) (bts : List Nat) : BitWriter :=
  ⟨w.buffer ++ bts, w.acc, w.nbits⟩

/-- `BitWriter.flush`: left-pad-shift a partial byte with zeros and append it. -/
def BitWriter.flush (w : BitWriter) : BitWriter :=
  if 0 < w.nbits then ⟨w.buffer ++ [w.acc <<< (8 - w.nbits)], 0, 0⟩ else w

/-- `BitWriter.get_bytes`. -/
def BitWriter.get_bytes (w : BitWriter) : List Nat := w.buffer

/-! ## `utils.BitReader` -/

/-- State of `utils.BitReader`: the underlying bytes, the `BytesIO` read
position, the current byte `cur` and the number of its bits not yet served. -/
structure BitReader where
  data : List Nat
  pos : Nat
  cur : Nat
  nbits : Nat
deriving DecidableEq

def BitReader.init (d : List Nat) : BitReader := ⟨d, 0, 0, 0⟩

/-- `BitReader.read_bit`: serve the next bit MSB-first, loading one byte at
a time; `none` at end of stream. -/
def BitReader.read_bit (r : BitReader) : Option Nat × BitReader :=
  if r.nbits = 0 then
    match r.data[r.pos]? with
    | none => (none, r)
    | some byte => (some ((byte >>> 7) &&& 1), ⟨r.data, r.pos + 1, byte, 7⟩)
  else
    (some ((r.cur >>> (r.nbits - 1)) &&& 1), ⟨r.data, r.pos, r.cur, r.nbits - 1⟩)

/-! ## `utils.pack_metadata` / `utils.unpack_metadata` -/

/-- Body of `pack_metadata`'s loop: one byte for the symbol
(`bytearray.append` rejects values outside a byte) followed by
`struct.pack` `>Q` of the frequency (rejects values of 64 bits or more). -/
def packEntries : List (Nat × Nat) → Except String (List Nat)
  | [] => .ok []
  | (sym, f) :: rest =>
    if sym ≥ 256 then .error "byte must be in range 0..256"
    else if f ≥ 2 ^ 64 then .error "int too large for Q format"
    else do
      let tail ← packEntries rest
      .ok (sym :: (toBE 8 f ++ tail))

/-- `utils.pack_metadata`: 2-byte big-endian entry count (`struct.pack`
`>H`, rejecting counts above 65535), then (symbol, 8-byte count) pairs in
dict order. -/
def pack_metadata (freqs : List (Nat × Nat)) : Except String (List Nat) :=
  if freqs.length ≥ 65536 then .error "H format requires 0 to 65535"
  else do
    let body ← packEntries freqs
    .ok (toBE 2 freqs.length ++ body)

/-- Entry-reading loop of `unpack_metadata`: at byte offset `pos`, read one
symbol byte (`buf.read(1)` empty means truncation) and 8 frequency bytes
(`buf.read(8)` short means truncation), `n` times, building the dict. -/
def unpackEntries (data : List Nat) : Nat → Nat → List (Nat × Nat) →
    Except String (List (Nat × Nat) × Nat)
  | 0, pos, acc => .ok (acc, pos)
  | n + 1, pos, acc =>
    if pos < data.length then
      if pos + 9 ≤ data.length then
        unpackEntries data n (pos + 9)
          (dictInsert acc (data.getD pos 0) (fromBE ((data.drop (pos + 1)).take 8)))
      else .error "Invalid metadata: incomplete frequency data"
    else .error "Invalid metadata: incomplete symbol data"

/-- `utils.unpack_metadata`: seek to 0, read the 2-byte count (error if
fewer than 2 bytes exist), then the entries; returns the table and the
number of bytes consumed. -/
def unpack_metadata (data : List Nat) : Except String (List (Nat × Nat) × Nat) :=
  if data.length < 2 then .error "Invalid metadata: header too short"
  else unpackEntries data (fromBE (data.take 2)) 2 []

/-! ## `huffman.Node` and CPython's `heapq` -/

/-- `huffman.Node`: a leaf owns a symbol, an internal node owns two
children; both carry a weight.  (`symbol=None` with children in Python.) -/
inductive Node where
  | leaf (freq : Nat) (symbol : Nat)
  | internal (freq : Nat) (left right : Node)
deriving DecidableEq

/-- `Node.freq`. -/
def Node.freq : Node → Nat
  | .leaf f _ => f
  | .internal f _ _ => f

/-- `Node.is_leaf`. -/
def Node.is_leaf : Node → Bool
  | .leaf _ _ => true
  | .internal _ _ _ => false

/-- `Node.symbol`, defaulting to `0` on internal nodes (Python has `None`;
the default is never read on the paths we prove about). -/
def Node.symbol : Node → Nat
  | .leaf _ s => s
  | .internal _ _ _ => 0

/-- Symbols at the leaves, left to right. -/
def Node.leafSyms : Node → List Nat
  | .leaf _ s => [s]
  | .internal _ l r => l.leafSyms ++ r.leafSyms

def nodeD : Node := .leaf 0 0

/-- Loop of CPython `heapq._siftdown(heap, startpos, pos)`: bubble the
saved `newitem` up while it compares `<` (by `Node.__lt__`, i.e. frequency)
with the parent, shifting parents down. Ends by reporting the hole position.
The loop is driven by structural fuel so that it evaluates in the kernel;
every call supplies `fuel = pos`, and since the parent index `(pos - 1) / 2`
is strictly below `pos` the loop always breaks before the fuel does, so the
fuel case never alters the result. -/
def siftdownLoop (startpos : Nat) (newitem : Node) :
    Nat → List Node → Nat → List Node × Nat
  | 0, heap, pos => (heap, pos)
  | fuel + 1, heap, pos =>
    if startpos < pos then
      let parentpos := (pos - 1) / 2
      let parent := heap.getD parentpos nodeD
      if newitem.freq < parent.freq then
        siftdownLoop startpos newitem fuel (heap.set pos parent) parentpos
      else (heap, pos)
    else (heap, pos)

/-- CPython `heapq._siftdown`. -/
def siftdown (heap : List Node) (startpos pos : Nat) : List Node :=
  let newitem := heap.getD pos nodeD
  let hp := siftdownLoop startpos newitem pos heap pos
  hp.1.set hp.2 newitem

/-- Loop of CPython `heapq._siftup(heap, pos)`: move the smaller child up
until reaching a leaf position of the heap.  Fuel-driven as above: every
call supplies `fuel = endpos`, and `endpos - pos` shrinks at every
iteration, so the loop always breaks before the fuel does. -/
def siftupLoop (endpos : Nat) : Nat → List Node → Nat → List Node × Nat
  | 0, heap, pos => (heap, pos)
  | fuel + 1, heap, pos =>
    let childpos := 2 * pos + 1
    if childpos < endpos then
      let rightpos := childpos + 1
      let childpos :=
        if rightpos < endpos ∧ ¬ (heap.getD childpos nodeD).freq < (heap.getD rightpos nodeD).freq
        then rightpos else childpos
      siftupLoop endpos fuel (heap.set pos (heap.getD childpos nodeD)) childpos
    else (heap, pos)

/-- CPython `heapq._siftup`: after the loop, drop `newitem` into the hole
and sift it down towards the root. -/
def siftup (heap : List Node) (pos : Nat) : List Node :=
  let endpos := heap.length
  let newitem := heap.getD pos nodeD
  let hp := siftupLoop endpos endpos heap pos
  siftdown (hp.1.set hp.2 newitem) pos hp.2

/-- CPython `heapq.heappush`. -/
def heappush (heap : List Node) (item : Node) : List Node :=
  siftdown (heap ++ [item]) 0 heap.length

/-- CPython `heapq.heappop`: `list.pop()` the last element; if the heap is
still non-empty, move it to the root and sift up.  `none` models the
`IndexError` on an empty heap. -/
def heappop (heap : List Node) : Option (Node × List Node) :=
  match heap.getLast? with
  | none => none
  | some lastelt =>
    let rest := heap.dropLast
    if rest.isEmpty then some (lastelt, [])
    else some (rest.getD 0 nodeD, siftup (rest.set 0 lastelt) 0)

/-- The initial `heappush` loop of `build_tree_from_freq`: one leaf per
dict entry, in dict order. -/
def pushAll (heap : List Node) : List (Nat × Nat) → List Node
  | [] => heap
  | (sym, f) :: rest => pushAll (heappush heap (.leaf f sym)) rest

/-- The merge loop of `build_tree_from_freq`: pop the two lightest nodes,
merge them (first popped on the left), push the merged node back.
Fuel-driven: each iteration shrinks the heap by exactly one node, so fuel
equal to the initial heap length always outlasts the loop. -/
def mergeLoop : Nat → List Node → List Node
  | 0, heap => heap
  | fuel + 1, heap =>
    if 1 < heap.length then
      match heappop heap with
      | none => heap
      | some (n1, heap1) =>
        match heappop heap1 with
        | none => heap1
        | some (n2, heap2) =>
          mergeLoop fuel (heappush heap2 (.internal (n1.freq + n2.freq) n1 n2))
    else heap

/-- `HuffmanCoder.build_tree_from_freq`: heapify the leaves, merge until a
single node remains, return it (`None` on an empty table). -/
def build_tree_from_freq (freq_dict : List (Nat × Nat)) : Option Node :=
  let heap := pushAll [] freq_dict
  if heap.isEmpty then none
  else
    match heappop (mergeLoop heap.length heap) with
    | some (root, _) => some root
    | none => none

/-- The recursive `walk` of `HuffmanCoder.tree_to_codes`: record
`(symbol, path)` at each leaf in depth-first order, the empty path at a
root leaf becoming the single bit `0`. -/
def walkCodes : Node → List Nat → List (Nat × List Nat)
  | .leaf _ s, px => [(s, if px.isEmpty then [0] else px)]
  | .internal _ l r, px => walkCodes l (px ++ [0]) ++ walkCodes r (px ++ [1])

/-- `HuffmanCoder.tree_to_codes`: the `codes` dict filled by the walk. -/
def tree_to_codes : Option Node → List (Nat × List Nat)
  | none => []
  | some root => (walkCodes root []).foldl (fun d sc => dictInsert d sc.1 sc.2) []

/-- The statistics dict returned by `compress_bytes`; a missing
`single_symbol` key is modelled as `false`. -/
structure Stats where
  freq_count : Nat
  single_symbol : Bool
deriving DecidableEq

/-- Inner loop of `compress_bytes`: emit one code, bit by bit. -/
def writeCode (bw : BitWriter) (code : List Nat) : BitWriter :=
  code.foldl (fun w ch => w.write_bit (if ch = 1 then 1 else 0)) bw

/-- Outer loop of `compress_bytes`: look up each input byte's code
(`codes[b]`, a `KeyError` if absent) and emit it. -/
def writeData (codes : List (Nat × List Nat)) (bw : BitWriter) :
    List Nat → Except String BitWriter
  | [] => .ok bw
  | b :: rest =>
    match dictGet? codes b with
    | none => .error "KeyError"
    | some code => writeData codes (writeCode bw code) rest

/-- `HuffmanCoder.compress_bytes`. -/
def compress_bytes (data : List Nat) : Except String (List Nat × Stats) :=
  if data.isEmpty then .error "Cannot compress empty data"
  else
    let freqs := counter data
    if freqs.length = 1 then do
      let meta ← pack_metadata freqs
      let bw := (BitWriter.init.write_bytes meta).flush
      .ok (bw.get_bytes, ⟨1, true⟩)
    else do
      let root := build_tree_from_freq freqs
      let codes := tree_to_codes root
      let meta ← pack_metadata freqs
      let bw ← writeData codes (BitWriter.init.write_bytes meta) data
      .ok (bw.flush.get_bytes, ⟨freqs.length, false⟩)

/-- Decoding loop of `decompress_bytes`: until `expected_size` symbols are
out, read a bit (stop at end of stream), step to the corresponding child
(an `AttributeError` would follow from stepping off a leaf, which never
happens on reachable states), emit and restart at the root on a leaf.
Fuel-driven: each iteration consumes exactly one bit, so fuel equal to the
number of bits remaining in the reader always outlasts the loop — when the
fuel is spent the reader is exhausted and the loop would stop anyway. -/
def decodeLoop (root : Node) (expected : Nat) :
    Nat → Node → BitReader → List Nat → Except String (List Nat)
  | 0, _, _, out => .ok out
  | fuel + 1, node, r, out =>
    if out.length < expected then
      match r.read_bit with
      | (none, _) => .ok out
      | (some bit, r2) =>
        match node with
        | .leaf _ _ => .error "NoneType has no attribute is_leaf"
        | .internal _ l rt =>
          let child := if bit = 1 then rt else l
          if child.is_leaf then decodeLoop root expected fuel root r2 (out ++ [child.symbol])
          else decodeLoop root expected fuel child r2 out
    else .ok out

/-- `HuffmanCoder.decompress_bytes`. -/
def decompress_bytes (data : List Nat) : Except String (List Nat) :=
  if data.isEmpty then .error "Cannot decompress empty data"
  else do
    let fp ← unpack_metadata data
    let freqs := fp.1
    if freqs.isEmpty then .error "Invalid compressed data: no frequency table found"
    else if freqs.length = 1 then
      .ok (List.replicate (freqs.getD 0 (0, 0)).2 (freqs.getD 0 (0, 0)).1)
    else
      match build_tree_from_freq freqs with
      | none => .ok []
      | some root =>
        let br := BitReader.mk data fp.2 0 0
        decodeLoop root (sumValues freqs) ((data.length - fp.2) * 8) root br []

/-! ## Bit sequences: the abstraction connecting writer, reader and codes -/

/-- The low `n` bits of `c`, most significant first. -/
def bitsOfCur : Nat → Nat → List Nat
  | 0, _ => []
  | n + 1, c => ((c >>> n) &&& 1) :: bitsOfCur n c

/-- The 8 bits of a byte, most significant first. -/
def byteBits (b : Nat) : List Nat := bitsOfCur 8 b

/-- All bits of a byte string, MSB-first per byte. -/
def bitsOfBytes : List Nat → List Nat
  | [] => []
  | b :: rest => byteBits b ++ bitsOfBytes rest

/-- The bits a reader has not yet served: the pending low bits of `cur`,
then the bits of the bytes from the read position on. -/
def readerBits (r : BitReader) : List Nat :=
  bitsOfCur r.nbits r.cur ++ bitsOfBytes (r.data.drop r.pos)

/-- Writing a list of bits in order with `write_bit`. -/
def writeBits (w : BitWriter) (bs : List Nat) : BitWriter :=
  bs.foldl BitWriter.write_bit w

/-- Reading `n` bits in order with `read_bit`, stopping early at end of
stream. -/
def readBitsList : Nat → BitReader → List Nat
  | 0, _ => []
  | n + 1, r =>
    match r.read_bit with
    | (none, _) => []
    | (some b, r2) => b :: readBitsList n r2

/-- The decoding loop expressed on the plain list of remaining bits; the
bridge between `decodeLoop` (byte-backed reader) and the code lists. -/
def decodeBits (root : Node) (expected : Nat) : Node → List Nat → List Nat →
    Except String (List Nat)
  | node, bits, out =>
    if out.length < expected then
      match bits with
      | [] => .ok out
      | bit :: rest =>
        match node with
        | .leaf _ _ => .error "NoneType has no attribute is_leaf"
        | .internal _ l rt =>
          let child := if bit = 1 then rt else l
          if child.is_leaf then decodeBits root expected root rest (out ++ [child.symbol])
          else decodeBits root expected child rest out
    else .ok out

/-- Walking a tree along a bit path: `0` goes left, `1` goes right (as in
the decoder); `none` on falling off a leaf. -/
def navigate : Node → List Nat → Option Node
  | t, [] => some t
  | .leaf _ _, _ :: _ => none
  | .internal _ l r, b :: rest => navigate (if b = 1 then r else l) rest

/-- Boolean list-prefix test (for the prefix-code property). -/
def isPref : List Nat → List Nat → Bool
  | [], _ => true
  | _ :: _, [] => false
  | x :: xs, y :: ys => x = y && isPref xs ys

/-- Leaf symbols of every node in a heap, in heap order. -/
def heapSyms : List Node → List Nat
  | [] => []
  | n :: rest => n.leafSyms ++ heapSyms rest

/-- The payload bit string of `compress_bytes`: the concatenation of each
input byte's code, in input order (empty code for a missing key, which the
compressor's `KeyError` path rules out). -/
def encodeData (codes : List (Nat × List Nat)) : List Nat → List Nat
  | [] => []
  | b :: rest => (dictGet? codes b).getD [] ++ encodeData codes rest

/-- The concrete input of the compression-effectiveness property:
`b'A'*1000 + b'B'*100 + b'C'*10`. -/
def data9 : List Nat :=
  List.replicate 1000 65 ++ List.replicate 100 66 ++ List.replicate 10 67

/-! # Lemmas: bit-level I/O -/

theorem and_one_lt (b : Nat) : b &&& 1 < 2 := by
  rw [Nat.and_one_is_mod]; omega

theorem or_low (a b : Nat) (h : b < 2) : 2 * a ||| b = 2 * a + b := by
  interval_cases b
  · simp
  · apply Nat.eq_of_testBit_eq
    intro i
    cases i with
    | zero =>
      simp [Nat.testBit_or, Nat.testBit_zero]
      omega
    | succ j =>
      rw [Nat.testBit_or, Nat.testBit_succ, Nat.testBit_succ, Nat.testBit_succ]
      have h1 : (2 * a + 1) / 2 = a := by omega
      have h2 : 2 * a / 2 = a := by omega
      have h3 : (1 : Nat) / 2 = 0 := by omega
      rw [h1, h2, h3]
      simp [Nat.zero_testBit]

theorem bitsOfCur_two_mul_add (n : Nat) :
    ∀ (c e : Nat), e < 2 → bitsOfCur (n + 1) (2 * c + e) = bitsOfCur n c ++ [e] := by
  induction n with
  | zero =>
    intro c e he
    simp only [bitsOfCur, Nat.shiftRight_eq_div_pow, Nat.and_one_is_mod, pow_zero,
      Nat.div_one, List.nil_append]
    congr 1
    omega
  | succ k ih =>
    intro c e he
    have hd : (2 * c + e) >>> (k + 1) = c >>> k := by
      rw [Nat.shiftRight_eq_div_pow, Nat.shiftRight_eq_div_pow, pow_succ']
      rw [← Nat.div_div_eq_div_mul]
      congr 1
      omega
    show (((2 * c + e) >>> (k + 1)) &&& 1) :: bitsOfCur (k + 1) (2 * c + e) =
      (((c >>> k) &&& 1) :: bitsOfCur k c) ++ [e]
    rw [hd, ih c e he, List.cons_append]

theorem bitsOfCur_shiftLeft (k : Nat) :
    ∀ (n a : Nat), bitsOfCur (n + k) (a <<< k) = bitsOfCur n a ++ List.replicate k 0 := by
  induction k with
  | zero => intro n a; simp [Nat.shiftLeft_eq]
  | succ k ih =>
    intro n a
    have h2 : a <<< (k + 1) = 2 * (a <<< k) + 0 := by
      rw [Nat.shiftLeft_eq, Nat.shiftLeft_eq, pow_succ]
      ring
    have h3 : n + (k + 1) = (n + k) + 1 := rfl
    rw [h3, h2, bitsOfCur_two_mul_add (n + k) (a <<< k) 0 (by omega), ih n a,
      List.append_assoc, ← List.replicate_succ' ..]

theorem bitsOfBytes_nil : bitsOfBytes [] = [] := rfl

theorem bitsOfBytes_cons (b : Nat) (rest : List Nat) :
    bitsOfBytes (b :: rest) = byteBits b ++ bitsOfBytes rest := rfl

theorem bitsOfBytes_singleton (b : Nat) : bitsOfBytes [b] = byteBits b := by
  rw [bitsOfBytes_cons, bitsOfBytes_nil, List.append_nil]

theorem bitsOfBytes_append :
    ∀ (xs ys : List Nat), bitsOfBytes (xs ++ ys) = bitsOfBytes xs ++ bitsOfBytes ys := by
  intro xs ys
  induction xs with
  | nil => rfl
  | cons x rest ih => simp [bitsOfBytes, ih, List.append_assoc]

theorem bitsOfCur_length (n : Nat) : ∀ (c : Nat), (bitsOfCur n c).length = n := by
  induction n with
  | zero => intro c; rfl
  | succ k ih => intro c; simp [bitsOfCur, ih]

theorem bitsOfBytes_length : ∀ (xs : List Nat), (bitsOfBytes xs).length = 8 * xs.length := by
  intro xs
  induction xs with
  | nil => rfl
  | cons x rest ih =>
    simp [bitsOfBytes, byteBits, ih, bitsOfCur_length]
    ring

theorem readerBits_length (r : BitReader) :
    (readerBits r).length = r.nbits + 8 * (r.data.length - r.pos) := by
  simp [readerBits, bitsOfCur_length, bitsOfBytes_length]

theorem write_bit_spec (w : BitWriter) (b : Nat) (h : w.nbits < 8) :
    ∃ ext, (w.write_bit b).buffer = w.buffer ++ ext ∧ (w.write_bit b).nbits < 8 ∧
      bitsOfBytes ext ++ bitsOfCur (w.write_bit b).nbits (w.write_bit b).acc =
        bitsOfCur w.nbits w.acc ++ [b &&& 1] := by
  have key : bitsOfCur (w.nbits + 1) ((w.acc <<< 1) ||| (b &&& 1)) =
      bitsOfCur w.nbits w.acc ++ [b &&& 1] := by
    have h1 : (w.acc <<< 1) ||| (b &&& 1) = 2 * w.acc + (b &&& 1) := by
      rw [Nat.shiftLeft_eq, show w.acc * 2 ^ 1 = 2 * w.acc by ring]
      exact or_low _ _ (and_one_lt b)
    rw [h1]
    exact bitsOfCur_two_mul_add _ _ _ (and_one_lt b)
  unfold BitWriter.write_bit
  by_cases h8 : w.nbits + 1 = 8
  · rw [if_pos h8]
    refine ⟨[(w.acc <<< 1) ||| (b &&& 1)], rfl, show (0 : Nat) < 8 by omega, ?_⟩
    show bitsOfBytes [(w.acc <<< 1) ||| (b &&& 1)] ++ bitsOfCur 0 0 =
      bitsOfCur w.nbits w.acc ++ [b &&& 1]
    rw [bitsOfBytes_singleton, show bitsOfCur 0 0 = ([] : List Nat) from rfl,
      List.append_nil, byteBits, ← h8]
    exact key
  · rw [if_neg h8]
    refine ⟨[], by simp, show w.nbits + 1 < 8 by omega, ?_⟩
    show bitsOfBytes [] ++ bitsOfCur (w.nbits + 1) ((w.acc <<< 1) ||| (b &&& 1)) =
      bitsOfCur w.nbits w.acc ++ [b &&& 1]
    rw [bitsOfBytes_nil, List.nil_append]
    exact key

theorem writeBits_spec :
    ∀ (bs : List Nat) (w : BitWriter), w.nbits < 8 →
      ∃ ext, (writeBits w bs).buffer = w.buffer ++ ext ∧ (writeBits w bs).nbits < 8 ∧
        bitsOfBytes ext ++ bitsOfCur (writeBits w bs).nbits (writeBits w bs).acc =
          bitsOfCur w.nbits w.acc ++ bs.map (fun b => b &&& 1) := by
  intro bs
  induction bs with
  | nil => intro w h; exact ⟨[], by simp [writeBits], h, by simp [writeBits, bitsOfBytes_nil]⟩
  | cons b rest ih =>
    intro w h
    obtain ⟨e1, hb1, hn1, heq1⟩ := write_bit_spec w b h
    obtain ⟨e2, hb2, hn2, heq2⟩ := ih (w.write_bit b) hn1
    have hw : writeBits w (b :: rest) = writeBits (w.write_bit b) rest := rfl
    refine ⟨e1 ++ e2, ?_, ?_, ?_⟩
    · rw [hw, hb2, hb1, List.append_assoc]
    · rw [hw]; exact hn2
    · rw [hw, bitsOfBytes_append, List.append_assoc, heq2, ← List.append_assoc, heq1]
      simp

theorem flush_spec (w : BitWriter) (h : w.nbits < 8) :
    ∃ ext, w.flush.buffer = w.buffer ++ ext ∧
      bitsOfBytes ext = bitsOfCur w.nbits w.acc ++ List.replicate ((8 - w.nbits) % 8) 0 := by
  unfold BitWriter.flush
  by_cases h0 : 0 < w.nbits
  · rw [if_pos h0]
    refine ⟨[w.acc <<< (8 - w.nbits)], rfl, ?_⟩
    rw [bitsOfBytes_singleton]
    generalize hgk : 8 - w.nbits = k
    rw [Nat.mod_eq_of_lt (show k < 8 by omega), byteBits,
      show (8 : Nat) = w.nbits + k from by omega, bitsOfCur_shiftLeft]
  · rw [if_neg h0]
    have h0' : w.nbits = 0 := by omega
    refine ⟨[], by simp, ?_⟩
    rw [h0', bitsOfBytes_nil]
    simp [bitsOfCur]

theorem read_bit_of_nil (r : BitReader) (h : readerBits r = []) : r.read_bit = (none, r) := by
  unfold readerBits at h
  rw [List.append_eq_nil] at h
  obtain ⟨h1, h2⟩ := h
  have hn : r.nbits = 0 := by
    cases hc : r.nbits with
    | zero => rfl
    | succ k => rw [hc] at h1; exact absurd h1 (by simp [bitsOfCur])
  have hd : r.data.drop r.pos = [] := by
    cases hc : r.data.drop r.pos with
    | nil => rfl
    | cons x xs =>
      rw [hc] at h2
      exact absurd h2 (by simp [bitsOfBytes, byteBits, bitsOfCur])
  have hg : r.data[r.pos]? = none := by
    rw [List.getElem?_eq_none]
    exact List.drop_eq_nil_iff.1 hd
  unfold BitReader.read_bit
  rw [if_pos hn, hg]

theorem drop_cons_elim {α : Type} :
    ∀ (l : List α) (n : Nat) (x : α) (xs : List α), l.drop n = x :: xs →
      l[n]? = some x ∧ l.drop (n + 1) = xs := by
  intro l
  induction l with
  | nil => intro n x xs h; rw [List.drop_nil] at h; exact absurd h (by simp)
  | cons a rest ih =>
    intro n x xs h
    cases n with
    | zero =>
      rw [List.drop_zero] at h
      cases h
      exact ⟨by simp, by simp⟩
    | succ k =>
      rw [List.drop_succ_cons] at h
      obtain ⟨ih1, ih2⟩ := ih k x xs h
      exact ⟨by simpa using ih1, by simpa using ih2⟩

theorem read_bit_of_cons (r : BitReader) (b : Nat) (bs : List Nat)
    (h : readerBits r = b :: bs) :
    ∃ r2, r.read_bit = (some b, r2) ∧ readerBits r2 = bs ∧ r2.data = r.data := by
  unfold readerBits at h
  cases hn : r.nbits with
  | zero =>
    rw [hn] at h
    simp only [bitsOfCur, List.nil_append] at h
    cases hd : r.data.drop r.pos with
    | nil => rw [hd] at h; exact absurd h (by simp [bitsOfBytes])
    | cons byte rest =>
      rw [hd] at h
      obtain ⟨hg, hd2⟩ := drop_cons_elim r.data r.pos byte rest hd
      have h2 : (((byte >>> 7) &&& 1) :: (bitsOfCur 7 byte ++ bitsOfBytes rest) : List Nat) =
          b :: bs := h
      injection h2 with hb hbs
      refine ⟨⟨r.data, r.pos + 1, byte, 7⟩, ?_, ?_, rfl⟩
      · unfold BitReader.read_bit
        rw [if_pos hn, hg]
        show (some ((byte >>> 7) &&& 1), BitReader.mk r.data (r.pos + 1) byte 7) =
          (some b, BitReader.mk r.data (r.pos + 1) byte 7)
        rw [hb]
      · show bitsOfCur 7 byte ++ bitsOfBytes (r.data.drop (r.pos + 1)) = bs
        rw [hd2]
        exact hbs
  | succ k =>
    rw [hn] at h
    simp only [bitsOfCur, List.cons_append] at h
    injection h with hb hbs
    refine ⟨⟨r.data, r.pos, r.cur, k⟩, ?_, ?_, rfl⟩
    · unfold BitReader.read_bit
      rw [if_neg (by omega), hn]
      show (some ((r.cur >>> (k + 1 - 1)) &&& 1), BitReader.mk r.data r.pos r.cur (k + 1 - 1)) =
        (some b, BitReader.mk r.data r.pos r.cur k)
      rw [Nat.add_sub_cancel, hb]
    · show bitsOfCur k r.cur ++ bitsOfBytes (r.data.drop r.pos) = bs
      exact hbs

theorem readBitsList_take :
    ∀ (n : Nat) (r : BitReader), readBitsList n r = (readerBits r).take n := by
  intro n
  induction n with
  | zero => intro r; simp [readBitsList]
  | succ k ih =>
    intro r
    cases hrb : readerBits r with
    | nil =>
      rw [readBitsList, read_bit_of_nil r hrb]
      simp
    | cons b bs =>
      obtain ⟨r2, hread, hr2, _⟩ := read_bit_of_cons r b bs hrb
      rw [readBitsList, hread]
      show b :: readBitsList k r2 = List.take (k + 1) (b :: bs)
      rw [ih r2, hr2, List.take_succ_cons]

/-! # Claim C8: writer/reader bit symmetry -/

/-- C8: bit order is symmetric between writer and reader: writing the bits
`b_0 .. b_{n-1}` in order with `write_bit`, flushing, and reading `n` bits
with `read_bit` from the resulting bytes returns exactly `b_0 .. b_{n-1}`;
moreover the bytes are the bits packed MSB-first, with the final partial
byte zero-padded on the low end. -/
theorem bit_order_symmetric (bs : List Nat) (h : ∀ b ∈ bs, b < 2) :
    readBitsList bs.length
        (BitReader.init ((writeBits BitWriter.init bs).flush.get_bytes)) = bs ∧
    bitsOfBytes ((writeBits BitWriter.init bs).flush.get_bytes) =
      bs ++ List.replicate ((8 - bs.length % 8) % 8) 0 := by
  obtain ⟨e1, hb1, hn1, heq1⟩ := writeBits_spec bs BitWriter.init (show (0 : Nat) < 8 by omega)
  obtain ⟨e2, hb2, heq2⟩ := flush_spec (writeBits BitWriter.init bs) hn1
  have hmap : bs.map (fun b => b &&& 1) = bs := by
    have : ∀ b ∈ bs, b &&& 1 = b := by
      intro b hb
      rw [Nat.and_one_is_mod]
      exact Nat.mod_eq_of_lt (h b hb)
    calc bs.map (fun b => b &&& 1) = bs.map id := List.map_congr_left this
    _ = bs := List.map_id bs
  rw [hmap] at heq1
  have hinit : BitWriter.init.buffer = [] := rfl
  have hcur0 : bitsOfCur BitWriter.init.nbits BitWriter.init.acc = ([] : List Nat) := rfl
  rw [hinit, List.nil_append] at hb1
  rw [hcur0, List.nil_append] at heq1
  have hlen : (bitsOfBytes e1).length + (writeBits BitWriter.init bs).nbits = bs.length := by
    have := congrArg List.length heq1
    simpa [bitsOfCur_length] using this
  have hnb : (writeBits BitWriter.init bs).nbits = bs.length % 8 := by
    rw [bitsOfBytes_length] at hlen
    omega
  have hbytes : (writeBits BitWriter.init bs).flush.get_bytes = e1 ++ e2 := by
    show (writeBits BitWriter.init bs).flush.buffer = e1 ++ e2
    rw [hb2, hb1]
  have hbits : bitsOfBytes ((writeBits BitWriter.init bs).flush.get_bytes) =
      bs ++ List.replicate ((8 - bs.length % 8) % 8) 0 := by
    rw [hbytes, bitsOfBytes_append, heq2, ← List.append_assoc, heq1, hnb]
  refine ⟨?_, hbits⟩
  rw [readBitsList_take]
  have hrb : readerBits (BitReader.init ((writeBits BitWriter.init bs).flush.get_bytes)) =
      bs ++ List.replicate ((8 - bs.length % 8) % 8) 0 := by
    unfold readerBits BitReader.init
    rw [show bitsOfCur 0 0 = ([] : List Nat) from rfl, List.nil_append, List.drop_zero]
    exact hbits
  rw [hrb, List.take_left]

/-- Witness for C8 at the concrete bit list `[1,0,1,1,0,0,1,0,1,1,1,0]`. -/
theorem bit_order_symmetric_witness :
    readBitsList ([1,0,1,1,0,0,1,0,1,1,1,0] : List Nat).length
        (BitReader.init
          ((writeBits BitWriter.init [1,0,1,1,0,0,1,0,1,1,1,0]).flush.get_bytes)) =
      [1,0,1,1,0,0,1,0,1,1,1,0] ∧
    bitsOfBytes ((writeBits BitWriter.init [1,0,1,1,0,0,1,0,1,1,1,0]).flush.get_bytes) =
      [1,0,1,1,0,0,1,0,1,1,1,0] ++
        List.replicate ((8 - ([1,0,1,1,0,0,1,0,1,1,1,0] : List Nat).length % 8) % 8) 0 :=
  bit_order_symmetric [1,0,1,1,0,0,1,0,1,1,1,0] (by decide)

/-! # Claim C2: the single-symbol path -/

/-- C2: compressing ten copies of symbol 65 yields exactly the 11-byte
metadata-only blob `[0x00,0x01, 0x41, 0x00..0x0A]` with the single-symbol
statistics, and decompressing that blob returns the ten original bytes. -/
theorem single_symbol_path :
    compress_bytes (List.replicate 10 65) =
      .ok ([0, 1, 65, 0, 0, 0, 0, 0, 0, 0, 10], ⟨1, true⟩) ∧
    decompress_bytes [0, 1, 65, 0, 0, 0, 0, 0, 0, 0, 10] = .ok (List.replicate 10 65) := by
  constructor <;> rfl

/-! # Claim C10: a declared-zero-symbol header parses but is rejected -/

/-- C10: decompressing any non-empty blob whose first two bytes are zero
(a metadata region declaring zero symbols) fails with the invalid-data
error, even though the metadata itself parses into the empty table. -/
theorem decompress_zero_count (rest : List Nat) :
    decompress_bytes (0 :: 0 :: rest) =
      .error "Invalid compressed data: no frequency table found" ∧
    unpack_metadata (0 :: 0 :: rest) = .ok ([], 2) := by
  have hu : unpack_metadata (0 :: 0 :: rest) = .ok ([], 2) := by
    unfold unpack_metadata
    rw [if_neg (by simp)]
    show unpackEntries (0 :: 0 :: rest) (fromBE [0, 0]) 2 [] = .ok ([], 2)
    rfl
  refine ⟨?_, hu⟩
  unfold decompress_bytes
  rw [if_neg (by simp)]
  rw [hu]
  rfl

/-! # Claim C4: error conditions -/

theorem unpackEntries_short (data : List Nat) :
    ∀ (n pos : Nat) (acc : List (Nat × Nat)), 0 < n → data.length < pos + 9 * n →
      ∃ e, unpackEntries data n pos acc = .error e := by
  intro n
  induction n with
  | zero => intro pos acc h0; omega
  | succ k ih =>
    intro pos acc h0 hlen
    by_cases h1 : pos < data.length
    · by_cases h2 : pos + 9 ≤ data.length
      · cases k with
        | zero => omega
        | succ m =>
          rw [unpackEntries, if_pos h1, if_pos h2]
          exact ih (pos + 9) _ (by omega) (by omega)
      · exact ⟨_, by rw [unpackEntries, if_pos h1, if_neg h2]⟩
    · exact ⟨_, by rw [unpackEntries, if_neg h1]⟩

/-- C4: `compress_bytes` and `decompress_bytes` reject empty input with the
empty-input error; decompressing the literal bytes of `b'invalid data'`
fails with a malformed-metadata error; and in general any non-empty blob
too short to hold the 2-byte count plus `N` 9-byte entries makes
`decompress_bytes` fail. -/
theorem error_conditions :
    compress_bytes [] = .error "Cannot compress empty data" ∧
    decompress_bytes [] = .error "Cannot decompress empty data" ∧
    decompress_bytes [105, 110, 118, 97, 108, 105, 100, 32, 100, 97, 116, 97] =
      .error "Invalid metadata: incomplete frequency data" ∧
    ∀ (data : List Nat), data ≠ [] → data.length < 2 + 9 * fromBE (data.take 2) →
      ∃ e, decompress_bytes data = .error e := by
  refine ⟨rfl, rfl, by rfl, ?_⟩
  intro data hne hlen
  have hie : data.isEmpty = false := by
    cases data with
    | nil => exact absurd rfl hne
    | cons a l => rfl
  by_cases h2 : data.length < 2
  · refine ⟨"Invalid metadata: header too short", ?_⟩
    unfold decompress_bytes
    rw [if_neg (by rw [hie]; exact Bool.false_ne_true)]
    unfold unpack_metadata
    rw [if_pos h2]
    rfl
  · have hn : 0 < fromBE (data.take 2) := by omega
    obtain ⟨e, he⟩ := unpackEntries_short data (fromBE (data.take 2)) 2 [] hn (by omega)
    refine ⟨e, ?_⟩
    unfold decompress_bytes
    rw [if_neg (by rw [hie]; exact Bool.false_ne_true)]
    unfold unpack_metadata
    rw [if_neg (by omega), he]
    rfl

/-- Witness for C4's universal part at the concrete 2-byte input `[0, 5]`
(which declares 5 entries but has no further bytes). -/
theorem error_conditions_witness :
    ([0, 5] : List Nat) ≠ [] ∧ ([0, 5] : List Nat).length < 2 + 9 * fromBE ([0, 5].take 2) ∧
    ∃ e, decompress_bytes [0, 5] = .error e :=
  ⟨by decide, by decide, error_conditions.2.2.2 [0, 5] (by decide) (by decide)⟩

/-! # Lemmas: big-endian fields and the metadata codec -/

theorem toBE_length (w : Nat) : ∀ (n : Nat), (toBE w n).length = w := by
  induction w with
  | zero => intro n; rfl
  | succ k ih => intro n; simp [toBE, ih]

theorem foldl_toBE (w : Nat) :
    ∀ (a n : Nat), List.foldl (fun a b => a * 256 + b) a (toBE w n) =
      a * 256 ^ w + n % 256 ^ w := by
  induction w with
  | zero =>
    intro a n
    simp [toBE, Nat.mod_one]
  | succ k ih =>
    intro a n
    show List.foldl _ (a * 256 + (n >>> (8 * k)) % 256) (toBE k n) = _
    rw [ih]
    have hsr : n >>> (8 * k) = n / 256 ^ k := by
      rw [Nat.shiftRight_eq_div_pow]
      congr 1
      rw [pow_mul]
      norm_num
    have hmm : n % (256 ^ k * 256) = n % 256 ^ k + 256 ^ k * (n / 256 ^ k % 256) :=
      Nat.mod_mul
    rw [hsr, pow_succ]
    ring_nf
    ring_nf at hmm
    omega

theorem fromBE_toBE (w n : Nat) (h : n < 256 ^ w) : fromBE (toBE w n) = n := by
  unfold fromBE
  rw [foldl_toBE]
  rw [Nat.mod_eq_of_lt h]
  omega

theorem dictKeys_append {α : Type} (d1 d2 : List (Nat × α)) :
    dictKeys (d1 ++ d2) = dictKeys d1 ++ dictKeys d2 := by
  simp [dictKeys]

theorem dictInsert_fresh {α : Type} :
    ∀ (d : List (Nat × α)) (k : Nat) (v : α), k ∉ dictKeys d →
      dictInsert d k v = d ++ [(k, v)] := by
  intro d
  induction d with
  | nil => intro k v _; rfl
  | cons p rest ih =>
    intro k v hk
    have h1 : p.1 ≠ k := by
      intro he
      exact hk (by simp [dictKeys, he])
    have h2 : k ∉ dictKeys rest := by
      intro hm
      exact hk (by simp [dictKeys] at hm ⊢; exact Or.inr hm)
    show dictInsert (p :: rest) k v = p :: rest ++ [(k, v)]
    rw [show (p : Nat × α) = (p.1, p.2) from rfl]
    unfold dictInsert
    rw [if_neg h1, ih k v h2, List.cons_append]

theorem packEntries_ok :
    ∀ (entries : List (Nat × Nat)), (∀ p ∈ entries, p.1 < 256 ∧ p.2 < 2 ^ 64) →
      ∃ b, packEntries entries = .ok b ∧ b.length = 9 * entries.length := by
  intro entries
  induction entries with
  | nil => intro _; exact ⟨[], rfl, rfl⟩
  | cons p rest ih =>
    intro hv
    obtain ⟨hs, hf⟩ := hv p (by simp)
    obtain ⟨tb, htb, htl⟩ := ih (fun q hq => hv q (by simp [hq]))
    refine ⟨p.1 :: (toBE 8 p.2 ++ tb), ?_, ?_⟩
    · show packEntries ((p.1, p.2) :: rest) = _
      unfold packEntries
      rw [if_neg (by omega), if_neg (by omega), htb]
      rfl
    · simp [toBE_length, htl]
      ring

theorem packEntries_length :
    ∀ (entries : List (Nat × Nat)) (b : List Nat), packEntries entries = .ok b →
      b.length = 9 * entries.length := by
  intro entries
  induction entries with
  | nil => intro b hb; cases hb; rfl
  | cons p tl ih =>
    intro b hb
    rw [show (p : Nat × Nat) = (p.1, p.2) from rfl] at hb
    unfold packEntries at hb
    by_cases hs : p.1 ≥ 256
    · rw [if_pos hs] at hb; exact absurd hb (by simp)
    by_cases hf : p.2 ≥ 2 ^ 64
    · rw [if_neg hs, if_pos hf] at hb; exact absurd hb (by simp)
    rw [if_neg hs, if_neg hf] at hb
    cases htb : packEntries tl with
    | error e => rw [htb] at hb; exact Except.noConfusion hb
    | ok tb =>
      rw [htb] at hb
      have hb2 : b = p.1 :: (toBE 8 p.2 ++ tb) := by cases hb; rfl
      subst hb2
      simp [toBE_length, ih tb htb]
      ring

theorem drop_len_append {α : Type} (l1 l2 : List α) : (l1 ++ l2).drop l1.length = l2 := by
  induction l1 with
  | nil => simp
  | cons a t ih => simpa using ih

theorem take_len_append {α : Type} (l1 l2 : List α) : (l1 ++ l2).take l1.length = l1 :=
  List.take_left l1 l2

theorem unpackEntries_of_pack :
    ∀ (entries : List (Nat × Nat)) (b : List Nat), packEntries entries = .ok b →
      ∀ (pre rest : List Nat) (acc : List (Nat × Nat)),
        (dictKeys acc ++ dictKeys entries).Nodup →
        unpackEntries (pre ++ b ++ rest) entries.length pre.length acc =
          .ok (acc ++ entries, pre.length + 9 * entries.length) := by
  intro entries
  induction entries with
  | nil =>
    intro b hb pre rest acc _
    cases hb
    simp [unpackEntries]
  | cons p tl ih =>
    intro b hb pre rest acc hnd
    rw [show (p : Nat × Nat) = (p.1, p.2) from rfl] at hb
    unfold packEntries at hb
    by_cases hs : p.1 ≥ 256
    · rw [if_pos hs] at hb; exact absurd hb (by simp)
    by_cases hf : p.2 ≥ 2 ^ 64
    · rw [if_neg hs, if_pos hf] at hb; exact absurd hb (by simp)
    rw [if_neg hs, if_neg hf] at hb
    cases htb : packEntries tl with
    | error e => rw [htb] at hb; exact Except.noConfusion hb
    | ok tb =>
      rw [htb] at hb
      have hb2 : b = p.1 :: (toBE 8 p.2 ++ tb) := by cases hb; rfl
      subst hb2
      have htbl : tb.length = 9 * tl.length := packEntries_length tl tb htb
      have hdlen : (pre ++ (p.1 :: (toBE 8 p.2 ++ tb)) ++ rest).length =
          pre.length + 9 + tb.length + rest.length := by
        simp [toBE_length]
        omega
      have hfresh : p.1 ∉ dictKeys acc := by
        rw [List.nodup_append] at hnd
        intro hm
        exact hnd.2.2 hm (by simp [dictKeys])
      have hkey : (pre ++ (p.1 :: (toBE 8 p.2 ++ tb)) ++ rest).getD pre.length 0 = p.1 := by
        rw [List.append_assoc, List.getD_eq_getElem?_getD,
          List.getElem?_append_right (Nat.le_refl pre.length), Nat.sub_self]
        rfl
      have hfreq : (((pre ++ (p.1 :: (toBE 8 p.2 ++ tb)) ++ rest).drop
          (pre.length + 1)).take 8) = toBE 8 p.2 := by
        have hassoc : pre ++ (p.1 :: (toBE 8 p.2 ++ tb)) ++ rest =
            (pre ++ [p.1]) ++ (toBE 8 p.2 ++ (tb ++ rest)) := by simp
        have hl1 : (pre ++ [p.1]).length = pre.length + 1 := by simp
        rw [hassoc, ← hl1, drop_len_append]
        generalize hbe : toBE 8 p.2 = be
        have hbl : be.length = 8 := by rw [← hbe]; exact toBE_length 8 p.2
        rw [← hbl, take_len_append]
      show unpackEntries (pre ++ (p.1 :: (toBE 8 p.2 ++ tb)) ++ rest) (tl.length + 1)
        pre.length acc = _
      rw [unpackEntries, if_pos (by omega), if_pos (by omega), hkey, hfreq,
        fromBE_toBE 8 p.2 (by norm_num at hf ⊢; omega),
        dictInsert_fresh acc p.1 p.2 hfresh]
      have hpre2 : pre.length + 9 = (pre ++ p.1 :: toBE 8 p.2).length := by
        simp [toBE_length]
      have hdata2 : pre ++ (p.1 :: (toBE 8 p.2 ++ tb)) ++ rest =
          (pre ++ p.1 :: toBE 8 p.2) ++ tb ++ rest := by simp
      have hnd2 : (dictKeys (acc ++ [(p.1, p.2)]) ++ dictKeys tl).Nodup := by
        rw [dictKeys_append, List.append_assoc]
        exact hnd
      rw [hpre2, hdata2, ih tb htb (pre ++ p.1 :: toBE 8 p.2) rest (acc ++ [(p.1, p.2)]) hnd2]
      refine congrArg Except.ok (Prod.ext ?_ ?_)
      · simp
      · simp [toBE_length]
        ring

theorem keys_length_le (freqs : List (Nat × Nat)) (hnd : (dictKeys freqs).Nodup)
    (hv : ∀ p ∈ freqs, p.1 < 256) : freqs.length ≤ 256 := by
  have h1 : freqs.length = (dictKeys freqs).length := by simp [dictKeys]
  rw [h1, ← List.toFinset_card_of_nodup hnd]
  have hsub : (dictKeys freqs).toFinset ⊆ Finset.range 256 := by
    intro x hx
    rw [List.mem_toFinset] at hx
    rw [Finset.mem_range]
    obtain ⟨p, hp, hpx⟩ := List.mem_map.1 hx
    exact hpx ▸ hv p hp
  calc (dictKeys freqs).toFinset.card ≤ (Finset.range 256).card := Finset.card_le_card hsub
  _ = 256 := Finset.card_range 256

/-- Packing a well-formed table and unpacking it (with any byte suffix in
place of the payload) recovers exactly the table and the metadata length. -/
theorem unpack_pack (freqs : List (Nat × Nat)) (hnd : (dictKeys freqs).Nodup)
    (hv : ∀ p ∈ freqs, p.1 < 256 ∧ p.2 < 2 ^ 64) (rest : List Nat) :
    ∃ meta, pack_metadata freqs = .ok meta ∧ meta.length = 2 + 9 * freqs.length ∧
      unpack_metadata (meta ++ rest) = .ok (freqs, 2 + 9 * freqs.length) := by
  have hle : freqs.length ≤ 256 := keys_length_le freqs hnd (fun p hp => (hv p hp).1)
  obtain ⟨body, hbody, hblen⟩ := packEntries_ok freqs hv
  refine ⟨toBE 2 freqs.length ++ body, ?_, ?_, ?_⟩
  · unfold pack_metadata
    rw [if_neg (by omega), hbody]
    rfl
  · simp [toBE_length, hblen]
  · unfold unpack_metadata
    have hlen2 : ((toBE 2 freqs.length ++ body) ++ rest).length =
        2 + 9 * freqs.length + rest.length := by
      simp [toBE_length, hblen]
      omega
    rw [if_neg (by omega)]
    have htake : ((toBE 2 freqs.length ++ body) ++ rest).take 2 = toBE 2 freqs.length := by
      rw [List.append_assoc]
      generalize hm : toBE 2 freqs.length = m
      have hm2 : m.length = 2 := by rw [← hm]; exact toBE_length 2 _
      rw [← hm2, take_len_append]
    rw [htake, fromBE_toBE 2 freqs.length (by norm_num; omega)]
    have hmain := unpackEntries_of_pack freqs body hbody (toBE 2 freqs.length) rest []
      (by simpa [dictKeys] using hnd)
    simp only [toBE_length, List.nil_append, List.append_assoc] at hmain
    rw [List.append_assoc]
    exact hmain

/-! # Claim C6: metadata round-trip -/

/-- C6: for every non-empty frequency table with distinct byte symbols and
counts below `2^64`, unpacking the packed metadata returns exactly the same
table (having consumed the whole metadata); and packing the empty table
produces exactly the 2 bytes of the zero count field. -/
theorem metadata_roundtrip :
    (∀ (freqs : List (Nat × Nat)), freqs ≠ [] → (dictKeys freqs).Nodup →
      (∀ p ∈ freqs, p.1 < 256 ∧ p.2 < 2 ^ 64) →
      ∃ meta, pack_metadata freqs = .ok meta ∧
        unpack_metadata meta = .ok (freqs, meta.length)) ∧
    pack_metadata [] = .ok [0, 0] := by
  constructor
  · intro freqs _ hnd hv
    obtain ⟨meta, hp, hl, hu⟩ := unpack_pack freqs hnd hv []
    rw [List.append_nil] at hu
    exact ⟨meta, hp, by rw [hl]; exact hu⟩
  · rfl

/-- Witness for C6 at the table `{65: 10, 66: 20, 67: 30}`. -/
theorem metadata_roundtrip_witness :
    (∃ meta, pack_metadata [(65, 10), (66, 20), (67, 30)] = .ok meta ∧
      unpack_metadata meta = .ok ([(65, 10), (66, 20), (67, 30)], meta.length)) ∧
    pack_metadata [] = .ok [0, 0] :=
  ⟨metadata_roundtrip.1 [(65, 10), (66, 20), (67, 30)] (by decide) (by decide) (by decide),
    metadata_roundtrip.2⟩

/-! # Claim C7: the decompressor rebuilds the identical tree -/

/-- C7: for a table with at least two distinct symbols, the table recovered
by unpacking the packed metadata is the original table, so the tree the
decompressor rebuilds — `build_tree_from_freq` being a pure function of the
table — is equal (same shape, same symbol at every leaf) to the
compressor's tree. -/
theorem rebuilt_tree_identical (freqs : List (Nat × Nat)) (h2 : 2 ≤ freqs.length)
    (hnd : (dictKeys freqs).Nodup) (hv : ∀ p ∈ freqs, p.1 < 256 ∧ p.2 < 2 ^ 64) :
    ∃ meta fp, pack_metadata freqs = .ok meta ∧ unpack_metadata meta = .ok fp ∧
      fp.1 = freqs ∧ build_tree_from_freq fp.1 = build_tree_from_freq freqs := by
  obtain ⟨meta, hp, hl, hu⟩ := unpack_pack freqs hnd hv []
  rw [List.append_nil] at hu
  exact ⟨meta, (freqs, 2 + 9 * freqs.length), hp, hu, rfl, rfl⟩

/-- Witness for C7 at the table `{65: 1, 66: 2}`. -/
theorem rebuilt_tree_identical_witness :
    ∃ meta fp, pack_metadata [(65, 1), (66, 2)] = .ok meta ∧
      unpack_metadata meta = .ok fp ∧ fp.1 = [(65, 1), (66, 2)] ∧
      build_tree_from_freq fp.1 = build_tree_from_freq [(65, 1), (66, 2)] :=
  rebuilt_tree_identical [(65, 1), (66, 2)] (by decide) (by decide) (by decide)

/-! # Lemmas: the heap operations permute nodes, so leaf symbols are
conserved from the frequency table into the final tree -/

theorem cons_set_perm {α : Type} (d : α) :
    ∀ (l : List α) (m : Nat) (x : α), m < l.length →
      ((l.getD m d) :: l.set m x).Perm (x :: l) := by
  intro l
  induction l with
  | nil => intro m x h; simp at h
  | cons a t ih =>
    intro m x h
    cases m with
    | zero =>
      show (a :: (x :: t)).Perm (x :: a :: t)
      exact List.Perm.swap x a t
    | succ k =>
      show ((t.getD k d) :: (a :: t.set k x)).Perm (x :: a :: t)
      exact ((List.Perm.swap a (t.getD k d) (t.set k x)).trans
        ((ih k x (by simpa using h)).cons a)).trans (List.Perm.swap x a t)

theorem set_cons_perm {α : Type} :
    ∀ (l : List α) (m : Nat) (a x : α), m < l.length →
      (x :: l.set m a).Perm (a :: l.set m x) := by
  intro l
  induction l with
  | nil => intro m a x h; simp at h
  | cons b t ih =>
    intro m a x h
    cases m with
    | zero => exact List.Perm.swap a x t
    | succ k =>
      show (x :: (b :: t.set k a)).Perm (a :: (b :: t.set k x))
      exact ((List.Perm.swap b x (t.set k a)).trans
        ((ih k a x (by simpa using h)).cons b)).trans (List.Perm.swap a b (t.set k x))

theorem set_swap_perm {α : Type} (d : α) :
    ∀ (l : List α) (i j : Nat) (x : α), i < l.length → j < l.length → i ≠ j →
      ((l.set i (l.getD j d)).set j x).Perm (l.set i x) := by
  intro l
  induction l with
  | nil => intro i j x hi _ _; simp at hi
  | cons a t ih =>
    intro i j x hi hj hij
    cases i with
    | zero =>
      cases j with
      | zero => exact absurd rfl hij
      | succ k =>
        show ((t.getD k d) :: t.set k x).Perm (x :: t)
        exact cons_set_perm d t k x (by simpa using hj)
    | succ m =>
      cases j with
      | zero =>
        show (x :: t.set m a).Perm (a :: t.set m x)
        exact set_cons_perm t m a x (by simpa using hi)
      | succ k =>
        show (a :: (t.set m (t.getD k d)).set k x).Perm (a :: t.set m x)
        exact (ih m k x (by simpa using hi) (by simpa using hj) (by omega)).cons a

theorem set_getD_self {α : Type} (d : α) :
    ∀ (l : List α) (i : Nat), i < l.length → l.set i (l.getD i d) = l := by
  intro l
  induction l with
  | nil => intro i h; simp at h
  | cons a t ih =>
    intro i h
    cases i with
    | zero => rfl
    | succ k =>
      show a :: t.set k (t.getD k d) = a :: t
      rw [ih k (by simpa using h)]

theorem siftdownLoop_spec (startpos : Nat) (ni : Node) :
    ∀ (fuel : Nat) (heap : List Node) (pos : Nat), pos < heap.length →
      (∀ (x : Node), ((siftdownLoop startpos ni fuel heap pos).1.set
          (siftdownLoop startpos ni fuel heap pos).2 x).Perm (heap.set pos x)) ∧
      (siftdownLoop startpos ni fuel heap pos).2 < heap.length ∧
      (siftdownLoop startpos ni fuel heap pos).1.length = heap.length := by
  intro fuel
  induction fuel with
  | zero =>
    intro heap pos h
    exact ⟨fun x => List.Perm.refl _, h, rfl⟩
  | succ f ih =>
    intro heap pos h
    have heq : siftdownLoop startpos ni (f + 1) heap pos =
        if startpos < pos then
          (if ni.freq < (heap.getD ((pos - 1) / 2) nodeD).freq then
            siftdownLoop startpos ni f (heap.set pos (heap.getD ((pos - 1) / 2) nodeD))
              ((pos - 1) / 2)
          else (heap, pos))
        else (heap, pos) := rfl
    rw [heq]
    by_cases hlt : startpos < pos
    · rw [if_pos hlt]
      by_cases hcmp : ni.freq < (heap.getD ((pos - 1) / 2) nodeD).freq
      · rw [if_pos hcmp]
        have hpp : (pos - 1) / 2 < (heap.set pos (heap.getD ((pos - 1) / 2) nodeD)).length := by
          rw [List.length_set]
          omega
        obtain ⟨ihp, ih2, ih3⟩ := ih (heap.set pos (heap.getD ((pos - 1) / 2) nodeD))
          ((pos - 1) / 2) hpp
        refine ⟨?_, ?_, ?_⟩
        · intro x
          exact (ihp x).trans (set_swap_perm nodeD heap pos ((pos - 1) / 2) x h
            (by omega) (by omega))
        · rw [List.length_set] at ih2; exact ih2
        · rw [List.length_set] at ih3; exact ih3
      · rw [if_neg hcmp]
        exact ⟨fun x => List.Perm.refl _, h, rfl⟩
    · rw [if_neg hlt]
      exact ⟨fun x => List.Perm.refl _, h, rfl⟩

theorem siftdown_spec (heap : List Node) (s pos : Nat) (h : pos < heap.length) :
    (siftdown heap s pos).Perm heap ∧ (siftdown heap s pos).length = heap.length := by
  obtain ⟨hperm, h2, h3⟩ := siftdownLoop_spec s (heap.getD pos nodeD) pos heap pos h
  unfold siftdown
  constructor
  · exact (hperm (heap.getD pos nodeD)).trans
      (by rw [set_getD_self nodeD heap pos h])
  · rw [List.length_set]
    exact h3

theorem siftupLoop_spec (endpos : Nat) :
    ∀ (fuel : Nat) (heap : List Node) (pos : Nat), pos < heap.length →
      endpos ≤ heap.length →
      (∀ (x : Node), ((siftupLoop endpos fuel heap pos).1.set
          (siftupLoop endpos fuel heap pos).2 x).Perm (heap.set pos x)) ∧
      (siftupLoop endpos fuel heap pos).2 < heap.length ∧
      (siftupLoop endpos fuel heap pos).1.length = heap.length := by
  intro fuel
  induction fuel with
  | zero =>
    intro heap pos h _
    exact ⟨fun x => List.Perm.refl _, h, rfl⟩
  | succ f ih =>
    intro heap pos h hend
    have heq : siftupLoop endpos (f + 1) heap pos =
        if 2 * pos + 1 < endpos then
          siftupLoop endpos f
            (heap.set pos (heap.getD (if 2 * pos + 1 + 1 < endpos ∧
                ¬ (heap.getD (2 * pos + 1) nodeD).freq <
                  (heap.getD (2 * pos + 1 + 1) nodeD).freq
              then 2 * pos + 1 + 1 else 2 * pos + 1) nodeD))
            (if 2 * pos + 1 + 1 < endpos ∧
                ¬ (heap.getD (2 * pos + 1) nodeD).freq <
                  (heap.getD (2 * pos + 1 + 1) nodeD).freq
              then 2 * pos + 1 + 1 else 2 * pos + 1)
        else (heap, pos) := rfl
    rw [heq]
    by_cases hlt : 2 * pos + 1 < endpos
    · rw [if_pos hlt]
      set cp := if 2 * pos + 1 + 1 < endpos ∧
          ¬ (heap.getD (2 * pos + 1) nodeD).freq < (heap.getD (2 * pos + 1 + 1) nodeD).freq
        then 2 * pos + 1 + 1 else 2 * pos + 1 with hcp
      have hcpb : pos < cp ∧ cp < endpos := by
        rw [hcp]
        split
        · rename_i hsp
          exact ⟨by omega, hsp.1⟩
        · exact ⟨by omega, hlt⟩
      have hcpl : cp < (heap.set pos (heap.getD cp nodeD)).length := by
        rw [List.length_set]
        omega
      obtain ⟨ihp, ih2, ih3⟩ := ih (heap.set pos (heap.getD cp nodeD)) cp hcpl
        (by rw [List.length_set]; exact hend)
      refine ⟨?_, ?_, ?_⟩
      · intro x
        exact (ihp x).trans (set_swap_perm nodeD heap pos cp x h (by omega) (by omega))
      · rw [List.length_set] at ih2; exact ih2
      · rw [List.length_set] at ih3; exact ih3
    · rw [if_neg hlt]
      exact ⟨fun x => List.Perm.refl _, h, rfl⟩

theorem siftup_spec (heap : List Node) (pos : Nat) (h : pos < heap.length) :
    (siftup heap pos).Perm heap ∧ (siftup heap pos).length = heap.length := by
  obtain ⟨hperm, h2, h3⟩ := siftupLoop_spec heap.length heap.length heap pos h (Nat.le_refl _)
  unfold siftup
  have hset : (((siftupLoop heap.length heap.length heap pos).1.set
      (siftupLoop heap.length heap.length heap pos).2 (heap.getD pos nodeD))).Perm heap := by
    exact (hperm (heap.getD pos nodeD)).trans (by rw [set_getD_self nodeD heap pos h])
  have hlen : ((siftupLoop heap.length heap.length heap pos).1.set
      (siftupLoop heap.length heap.length heap pos).2 (heap.getD pos nodeD)).length =
      heap.length := by
    rw [List.length_set]
    exact h3
  obtain ⟨hd1, hd2⟩ := siftdown_spec ((siftupLoop heap.length heap.length heap pos).1.set
    (siftupLoop heap.length heap.length heap pos).2 (heap.getD pos nodeD)) pos
    (siftupLoop heap.length heap.length heap pos).2 (by rw [List.length_set]; omega)
  exact ⟨hd1.trans hset, hd2.trans hlen⟩

theorem heappush_spec (heap : List Node) (item : Node) :
    (heappush heap item).Perm (item :: heap) ∧
    (heappush heap item).length = heap.length + 1 := by
  unfold heappush
  have hpos : heap.length < (heap ++ [item]).length := by simp
  obtain ⟨h1, h2⟩ := siftdown_spec (heap ++ [item]) 0 heap.length hpos
  refine ⟨h1.trans (List.perm_append_singleton item heap), ?_⟩
  rw [h2]
  simp

theorem heappop_spec {heap h2 : List Node} {n : Node} (h : heappop heap = some (n, h2)) :
    (n :: h2).Perm heap ∧ h2.length + 1 = heap.length := by
  unfold heappop at h
  match hl : heap.getLast? with
  | none => rw [hl] at h; exact absurd h (by simp)
  | some lastelt =>
    rw [hl] at h
    have hne : heap ≠ [] := by intro he; subst he; simp at hl
    have hlpos : 0 < heap.length := List.length_pos.2 hne
    have hgl : heap.getLast hne = lastelt := (List.getLast_eq_iff_getLast_eq_some hne).mpr hl
    have hdl : heap.dropLast ++ [lastelt] = heap := by
      rw [← hgl]
      exact List.dropLast_append_getLast hne
    replace h : (if heap.dropLast.isEmpty then some (lastelt, ([] : List Node))
        else some (heap.dropLast.getD 0 nodeD, siftup (heap.dropLast.set 0 lastelt) 0)) =
        some (n, h2) := h
    by_cases he : heap.dropLast.isEmpty
    · rw [if_pos he] at h
      cases h
      have hh : heap = [n] := by
        rw [← hdl, List.isEmpty_iff.mp he]
        rfl
      rw [hh]
      exact ⟨List.Perm.refl _, rfl⟩
    · rw [if_neg he] at h
      cases h
      have hrne : heap.dropLast ≠ [] := by
        intro hc
        rw [hc] at he
        exact he rfl
      have hrl : 0 < heap.dropLast.length := List.length_pos.2 hrne
      obtain ⟨hs1, hs2⟩ := siftup_spec (heap.dropLast.set 0 lastelt) 0
        (by rw [List.length_set]; omega)
      constructor
      · have c1 : ((heap.dropLast.getD 0 nodeD) ::
            siftup (heap.dropLast.set 0 lastelt) 0).Perm
            ((heap.dropLast.getD 0 nodeD) :: heap.dropLast.set 0 lastelt) :=
          hs1.cons _
        have c2 : ((heap.dropLast.getD 0 nodeD) :: heap.dropLast.set 0 lastelt).Perm
            (lastelt :: heap.dropLast) := cons_set_perm nodeD heap.dropLast 0 lastelt hrl
        have c3 : (lastelt :: heap.dropLast).Perm heap := by
          conv_rhs => rw [← hdl]
          exact (List.perm_append_singleton lastelt heap.dropLast).symm
        exact (c1.trans c2).trans c3
      · rw [hs2, List.length_set, List.length_dropLast]
        omega

theorem heappop_none {heap : List Node} (h : heappop heap = none) : heap = [] := by
  unfold heappop at h
  match hl : heap.getLast? with
  | some x =>
    rw [hl] at h
    replace h : (if heap.dropLast.isEmpty then some (x, ([] : List Node))
        else some (heap.dropLast.getD 0 nodeD, siftup (heap.dropLast.set 0 x) 0)) =
        none := h
    by_cases he : heap.dropLast.isEmpty
    · rw [if_pos he] at h; exact absurd h (by simp)
    · rw [if_neg he] at h; exact absurd h (by simp)
  | none => exact List.getLast?_eq_none_iff.mp hl

theorem heapSyms_perm {h1 h2 : List Node} (hp : h1.Perm h2) :
    (heapSyms h1).Perm (heapSyms h2) := by
  induction hp with
  | nil => exact List.Perm.refl _
  | cons x _ ih =>
    exact List.Perm.append_left x.leafSyms ih
  | swap x y l =>
    show (y.leafSyms ++ (x.leafSyms ++ heapSyms l)).Perm
      (x.leafSyms ++ (y.leafSyms ++ heapSyms l))
    have hc : ((y.leafSyms ++ x.leafSyms) ++ heapSyms l).Perm
        ((x.leafSyms ++ y.leafSyms) ++ heapSyms l) :=
      (List.perm_append_comm).append_right _
    simpa [List.append_assoc] using hc
  | trans _ _ ih1 ih2 => exact ih1.trans ih2

theorem pushAll_spec :
    ∀ (entries : List (Nat × Nat)) (heap : List Node),
      (heapSyms (pushAll heap entries)).Perm (heapSyms heap ++ dictKeys entries) ∧
      (pushAll heap entries).length = heap.length + entries.length := by
  intro entries
  induction entries with
  | nil =>
    intro heap
    constructor
    · show (heapSyms heap).Perm (heapSyms heap ++ dictKeys [])
      simp [dictKeys]
    · rfl
  | cons p tl ih =>
    intro heap
    obtain ⟨s, f⟩ := p
    obtain ⟨hp1, hp2⟩ := heappush_spec heap (.leaf f s)
    obtain ⟨ih1, ih2⟩ := ih (heappush heap (.leaf f s))
    constructor
    · show (heapSyms (pushAll (heappush heap (.leaf f s)) tl)).Perm
        (heapSyms heap ++ (s :: dictKeys tl))
      have c1 := ih1.trans ((heapSyms_perm hp1).append_right (dictKeys tl))
      have c2 : ((heapSyms (Node.leaf f s :: heap)) ++ dictKeys tl).Perm
          (heapSyms heap ++ (s :: dictKeys tl)) := by
        show (([s] ++ heapSyms heap) ++ dictKeys tl).Perm _
        have c3 : (([s] ++ heapSyms heap) ++ dictKeys tl).Perm
            ((heapSyms heap ++ [s]) ++ dictKeys tl) :=
          (List.perm_append_comm).append_right _
        refine c3.trans ?_
        rw [List.append_assoc]
        exact List.Perm.refl _
      exact c1.trans c2
    · show (pushAll (heappush heap (.leaf f s)) tl).length = heap.length + (tl.length + 1)
      rw [ih2, hp2]
      omega

theorem mergeLoop_spec :
    ∀ (fuel : Nat) (heap : List Node),
      (heapSyms (mergeLoop fuel heap)).Perm (heapSyms heap) ∧
      (1 ≤ heap.length → heap.length ≤ fuel + 1 → (mergeLoop fuel heap).length = 1) := by
  intro fuel
  induction fuel with
  | zero =>
    intro heap
    exact ⟨List.Perm.refl _, fun hl1 hl2 => by show heap.length = 1; omega⟩
  | succ f ih =>
    intro heap
    by_cases hlen : 1 < heap.length
    · cases hp1 : heappop heap with
      | none =>
        have := heappop_none hp1
        subst this
        simp at hlen
      | some pr1 =>
        obtain ⟨n1, heap1⟩ := pr1
        obtain ⟨hq1, hl1⟩ := heappop_spec hp1
        cases hp2 : heappop heap1 with
        | none =>
          have h0 := heappop_none hp2
          subst h0
          simp at hl1
          omega
        | some pr2 =>
          obtain ⟨n2, heap2⟩ := pr2
          obtain ⟨hq2, hl2⟩ := heappop_spec hp2
          have heq : mergeLoop (f + 1) heap =
              mergeLoop f (heappush heap2 (.internal (n1.freq + n2.freq) n1 n2)) := by
            show (if 1 < heap.length then _ else heap) = _
            rw [if_pos hlen]
            simp only [hp1, hp2]
          obtain ⟨hpu1, hpu2⟩ := heappush_spec heap2 (.internal (n1.freq + n2.freq) n1 n2)
          obtain ⟨ihs, ihl⟩ := ih (heappush heap2 (.internal (n1.freq + n2.freq) n1 n2))
          constructor
          · rw [heq]
            refine ihs.trans ?_
            refine (heapSyms_perm hpu1).trans ?_
            show ((n1.leafSyms ++ n2.leafSyms) ++ heapSyms heap2).Perm (heapSyms heap)
            have d2 : ((n2.leafSyms ++ heapSyms heap2)).Perm (heapSyms heap1) :=
              heapSyms_perm hq2
            have d1 : ((n1.leafSyms ++ heapSyms heap1)).Perm (heapSyms heap) :=
              heapSyms_perm hq1
            refine List.Perm.trans ?_ d1
            rw [List.append_assoc]
            exact List.Perm.append_left n1.leafSyms d2
          · intro _ hle
            rw [heq]
            exact ihl (by omega) (by omega)
    · have heq : mergeLoop (f + 1) heap = heap := by
        show (if 1 < heap.length then _ else heap) = heap
        rw [if_neg hlen]
      rw [heq]
      exact ⟨List.Perm.refl _, fun hl1 hl2 => by omega⟩

theorem mergeLoop_singleton (fuel : Nat) (x : Node) : mergeLoop fuel [x] = [x] := by
  cases fuel
  · rfl
  · rfl

theorem mergeLoop_internal :
    ∀ (fuel : Nat) (heap : List Node), 2 ≤ heap.length → heap.length ≤ fuel + 1 →
      ∃ fq l r, mergeLoop fuel heap = [.internal fq l r] := by
  intro fuel
  induction fuel with
  | zero => intro heap h2 h1; omega
  | succ f ih =>
    intro heap h2 hle
    have hlen : 1 < heap.length := by omega
    cases hp1 : heappop heap with
    | none =>
      have := heappop_none hp1
      subst this
      simp at hlen
    | some pr1 =>
      obtain ⟨n1, heap1⟩ := pr1
      obtain ⟨_, hl1⟩ := heappop_spec hp1
      cases hp2 : heappop heap1 with
      | none =>
        have h0 := heappop_none hp2
        subst h0
        simp at hl1
        omega
      | some pr2 =>
        obtain ⟨n2, heap2⟩ := pr2
        obtain ⟨_, hl2⟩ := heappop_spec hp2
        have heq : mergeLoop (f + 1) heap =
            mergeLoop f (heappush heap2 (.internal (n1.freq + n2.freq) n1 n2)) := by
          show (if 1 < heap.length then _ else heap) = _
          rw [if_pos hlen]
          simp only [hp1, hp2]
        have hpu2 := (heappush_spec heap2 (.internal (n1.freq + n2.freq) n1 n2)).2
        by_cases hc : 2 ≤ (heappush heap2 (.internal (n1.freq + n2.freq) n1 n2)).length
        · rw [heq]
          exact ih _ hc (by omega)
        · have h20 : heap2 = [] := List.length_eq_zero.mp (by omega)
          subst h20
          rw [heq]
          have hpush : heappush [] (Node.internal (n1.freq + n2.freq) n1 n2) =
              [Node.internal (n1.freq + n2.freq) n1 n2] := rfl
          rw [hpush, mergeLoop_singleton]
          exact ⟨_, _, _, rfl⟩

/-- `build_tree_from_freq` on a non-empty table returns a tree whose
multiset of leaf symbols is exactly the table's key set, and the root is an
internal node whenever the table has at least two entries. -/
theorem build_tree_spec (freqs : List (Nat × Nat)) (hne : freqs ≠ []) :
    ∃ root, build_tree_from_freq freqs = some root ∧
      root.leafSyms.Perm (dictKeys freqs) ∧
      (2 ≤ freqs.length → ∃ fq l r, root = Node.internal fq l r) := by
  obtain ⟨ha1, ha2⟩ := pushAll_spec freqs []
  have hplen : (pushAll [] freqs).length = freqs.length := by simpa using ha2
  have hfpos : 1 ≤ freqs.length := by
    cases freqs with
    | nil => exact absurd rfl hne
    | cons a l => simp
  obtain ⟨hm1, hm2⟩ := mergeLoop_spec (pushAll [] freqs).length (pushAll [] freqs)
  have hml : (mergeLoop (pushAll [] freqs).length (pushAll [] freqs)).length = 1 :=
    hm2 (by omega) (by omega)
  obtain ⟨root, hroot⟩ := List.length_eq_one.mp hml
  have hsyms : root.leafSyms.Perm (dictKeys freqs) := by
    have e1 : heapSyms [root] = root.leafSyms ++ [] := rfl
    have e2 := hm1
    rw [hroot] at e2
    rw [e1, List.append_nil] at e2
    refine e2.trans ?_
    refine ha1.trans ?_
    show (([] : List Nat) ++ dictKeys freqs).Perm (dictKeys freqs)
    simp
  refine ⟨root, ?_, hsyms, ?_⟩
  · show (if (pushAll [] freqs).isEmpty then none
      else match heappop (mergeLoop (pushAll [] freqs).length (pushAll [] freqs)) with
        | some (r, _) => some r
        | none => none) = some root
    rw [if_neg (by rw [List.isEmpty_iff]; intro hc; rw [hc] at hplen; simp at hplen; omega),
      hroot]
    rfl
  · intro h2
    obtain ⟨fq, l, r, hint⟩ := mergeLoop_internal (pushAll [] freqs).length (pushAll [] freqs)
      (by omega) (by omega)
    rw [hroot] at hint
    exact ⟨fq, l, r, by injection hint⟩

/-! # Lemmas: derived codes are root-to-leaf paths and form a prefix code -/

theorem isPref_refl : ∀ (a : List Nat), isPref a a = true := by
  intro a
  induction a with
  | nil => rfl
  | cons x xs ih => simp [isPref, ih]

theorem isPref_append : ∀ (a b : List Nat), isPref a (a ++ b) = true := by
  intro a b
  induction a with
  | nil => rfl
  | cons x xs ih => simp [isPref, ih]

theorem isPref_trans : ∀ (a b c : List Nat), isPref a b = true → isPref b c = true →
    isPref a c = true := by
  intro a
  induction a with
  | nil => intro b c _ _; rfl
  | cons x xs ih =>
    intro b c h1 h2
    cases b with
    | nil => exact absurd h1 (by simp [isPref])
    | cons y ys =>
      cases c with
      | nil => exact absurd h2 (by simp [isPref])
      | cons z zs =>
        simp [isPref] at h1 h2 ⊢
        exact ⟨h1.1.trans h2.1, ih ys zs h1.2 h2.2⟩

theorem isPref_length_eq : ∀ (a b c : List Nat), isPref a c = true → isPref b c = true →
    a.length = b.length → a = b := by
  intro a
  induction a with
  | nil =>
    intro b c _ _ hl
    cases b with
    | nil => rfl
    | cons y ys => simp at hl
  | cons x xs ih =>
    intro b c h1 h2 hl
    cases b with
    | nil => simp at hl
    | cons y ys =>
      cases c with
      | nil => exact absurd h1 (by simp [isPref])
      | cons z zs =>
        simp [isPref] at h1 h2
        simp at hl
        rw [h1.1, ← h2.1, ih ys zs h1.2 h2.2 hl]

theorem walkCodes_mem_sym : ∀ (t : Node) (px : List Nat) (s : Nat) (c : List Nat),
    (s, c) ∈ walkCodes t px → s ∈ t.leafSyms := by
  intro t
  induction t with
  | leaf f sym =>
    intro px s c h
    simp [walkCodes] at h
    simp [Node.leafSyms, h.1]
  | internal f l r ihl ihr =>
    intro px s c h
    simp only [walkCodes, List.mem_append] at h
    simp only [Node.leafSyms, List.mem_append]
    cases h with
    | inl h => exact Or.inl (ihl _ s c h)
    | inr h => exact Or.inr (ihr _ s c h)

theorem walkCodes_sym_mem : ∀ (t : Node) (px : List Nat) (s : Nat),
    s ∈ t.leafSyms → ∃ c, (s, c) ∈ walkCodes t px := by
  intro t
  induction t with
  | leaf f sym =>
    intro px s h
    simp [Node.leafSyms] at h
    exact ⟨if px.isEmpty then [0] else px, by simp [walkCodes, h]⟩
  | internal f l r ihl ihr =>
    intro px s h
    simp only [Node.leafSyms, List.mem_append] at h
    cases h with
    | inl h =>
      obtain ⟨c, hc⟩ := ihl (px ++ [0]) s h
      exact ⟨c, by simp [walkCodes]; exact Or.inl hc⟩
    | inr h =>
      obtain ⟨c, hc⟩ := ihr (px ++ [1]) s h
      exact ⟨c, by simp [walkCodes]; exact Or.inr hc⟩

theorem walkCodes_px_pref : ∀ (t : Node) (px : List Nat) (s : Nat) (c : List Nat),
    px ≠ [] → (s, c) ∈ walkCodes t px → isPref px c = true := by
  intro t
  induction t with
  | leaf f sym =>
    intro px s c hpx h
    have hie : px.isEmpty = false := by
      cases px with
      | nil => exact absurd rfl hpx
      | cons a l => rfl
    simp [walkCodes, hie] at h
    rw [h.2]
    exact isPref_refl px
  | internal f l r ihl ihr =>
    intro px s c hpx h
    simp only [walkCodes, List.mem_append] at h
    cases h with
    | inl h =>
      exact isPref_trans px (px ++ [0]) c (isPref_append px [0]) (ihl _ s c (by simp) h)
    | inr h =>
      exact isPref_trans px (px ++ [1]) c (isPref_append px [1]) (ihr _ s c (by simp) h)

theorem append_singleton_ne_nil {α : Type} (l : List α) (x : α) : l ++ [x] ≠ [] := by
  simp

theorem walkCodes_pref_eq : ∀ (t : Node) (px : List Nat) (s1 : Nat) (c1 : List Nat)
    (s2 : Nat) (c2 : List Nat), (s1, c1) ∈ walkCodes t px → (s2, c2) ∈ walkCodes t px →
    isPref c1 c2 = true → c1 = c2 := by
  intro t
  induction t with
  | leaf f sym =>
    intro px s1 c1 s2 c2 h1 h2 _
    simp [walkCodes] at h1 h2
    rw [h1.2, h2.2]
  | internal f l r ihl ihr =>
    intro px s1 c1 s2 c2 h1 h2 hpref
    simp only [walkCodes, List.mem_append] at h1 h2
    cases h1 with
    | inl h1 =>
      cases h2 with
      | inl h2 => exact ihl _ s1 c1 s2 c2 h1 h2 hpref
      | inr h2 =>
        have p1 : isPref (px ++ [0]) c1 = true :=
          walkCodes_px_pref l _ s1 c1 (append_singleton_ne_nil px 0) h1
        have p2 : isPref (px ++ [1]) c2 = true :=
          walkCodes_px_pref r _ s2 c2 (append_singleton_ne_nil px 1) h2
        have p1c2 : isPref (px ++ [0]) c2 = true := isPref_trans _ c1 c2 p1 hpref
        have : px ++ [0] = px ++ [1] :=
          isPref_length_eq (px ++ [0]) (px ++ [1]) c2 p1c2 p2 (by simp)
        simp at this
    | inr h1 =>
      cases h2 with
      | inl h2 =>
        have p1 : isPref (px ++ [1]) c1 = true :=
          walkCodes_px_pref r _ s1 c1 (append_singleton_ne_nil px 1) h1
        have p2 : isPref (px ++ [0]) c2 = true :=
          walkCodes_px_pref l _ s2 c2 (append_singleton_ne_nil px 0) h2
        have p1c2 : isPref (px ++ [1]) c2 = true := isPref_trans _ c1 c2 p1 hpref
        have : px ++ [1] = px ++ [0] :=
          isPref_length_eq (px ++ [1]) (px ++ [0]) c2 p1c2 p2 (by simp)
        simp at this
      | inr h2 => exact ihr _ s1 c1 s2 c2 h1 h2 hpref

theorem walkCodes_codes_nodup : ∀ (t : Node) (px : List Nat),
    ((walkCodes t px).map Prod.snd).Nodup := by
  intro t
  induction t with
  | leaf f sym => intro px; simp [walkCodes]
  | internal f l r ihl ihr =>
    intro px
    simp only [walkCodes, List.map_append]
    rw [List.nodup_append]
    refine ⟨ihl _, ihr _, ?_⟩
    intro c hcl hcr
    obtain ⟨a, hm1, he1⟩ := List.mem_map.1 hcl
    obtain ⟨b, hm2, he2⟩ := List.mem_map.1 hcr
    have ha2 : (a.1, c) ∈ walkCodes l (px ++ [0]) := by rw [← he1]; simpa using hm1
    have hb2 : (b.1, c) ∈ walkCodes r (px ++ [1]) := by rw [← he2]; simpa using hm2
    have p1 : isPref (px ++ [0]) c = true :=
      walkCodes_px_pref l _ a.1 c (append_singleton_ne_nil px 0) ha2
    have p2 : isPref (px ++ [1]) c = true :=
      walkCodes_px_pref r _ b.1 c (append_singleton_ne_nil px 1) hb2
    have : px ++ [0] = px ++ [1] :=
      isPref_length_eq (px ++ [0]) (px ++ [1]) c p1 p2 (by simp)
    simp at this

theorem walkCodes_code_inj (t : Node) (px : List Nat) (s1 s2 : Nat) (c : List Nat)
    (h1 : (s1, c) ∈ walkCodes t px) (h2 : (s2, c) ∈ walkCodes t px) : s1 = s2 := by
  have hinj := List.inj_on_of_nodup_map (walkCodes_codes_nodup t px)
  have h12 : (s1, c) = (s2, c) := hinj h1 h2 rfl
  exact congrArg Prod.fst h12

theorem dictGet?_mem {α : Type} : ∀ (d : List (Nat × α)) (k : Nat) (v : α),
    dictGet? d k = some v → (k, v) ∈ d := by
  intro d
  induction d with
  | nil => intro k v h; exact absurd h (by simp [dictGet?])
  | cons p rest ih =>
    intro k v h
    unfold dictGet? at h
    by_cases he : p.1 = k
    · rw [if_pos he] at h
      cases h
      rw [← he]
      exact List.mem_cons_self p rest
    · rw [if_neg he] at h
      exact List.mem_cons_of_mem p (ih k v h)

theorem dictGet?_isSome_of_mem {α : Type} : ∀ (d : List (Nat × α)) (k : Nat),
    k ∈ dictKeys d → ∃ v, dictGet? d k = some v := by
  intro d
  induction d with
  | nil => intro k h; simp [dictKeys] at h
  | cons p rest ih =>
    intro k h
    unfold dictGet?
    by_cases he : p.1 = k
    · exact ⟨p.2, by rw [if_pos he]⟩
    · simp [dictKeys] at h
      cases h with
      | inl h => exact absurd h.symm he
      | inr h =>
        obtain ⟨v, hv⟩ := ih k (by simpa [dictKeys] using h)
        exact ⟨v, by rw [if_neg he]; exact hv⟩

theorem dictInsert_mem_sub {α : Type} : ∀ (d : List (Nat × α)) (k : Nat) (v : α)
    (p : Nat × α), p ∈ dictInsert d k v → p ∈ d ∨ p = (k, v) := by
  intro d
  induction d with
  | nil => intro k v p h; simp [dictInsert] at h; exact Or.inr h
  | cons q rest ih =>
    intro k v p h
    unfold dictInsert at h
    by_cases he : q.1 = k
    · rw [if_pos he] at h
      cases h with
      | head => exact Or.inr (by rw [he])
      | tail _ h => exact Or.inl (List.mem_cons_of_mem q h)
    · rw [if_neg he] at h
      cases h with
      | head => exact Or.inl (List.mem_cons_self q rest)
      | tail _ h =>
        cases ih k v p h with
        | inl h => exact Or.inl (List.mem_cons_of_mem q h)
        | inr h => exact Or.inr h

theorem dictInsert_keys_sub {α : Type} : ∀ (d : List (Nat × α)) (k k2 : Nat) (v : α),
    k2 ∈ dictKeys d ∨ k2 = k → k2 ∈ dictKeys (dictInsert d k v) := by
  intro d
  induction d with
  | nil =>
    intro k k2 v h
    simp [dictKeys] at h
    simp [dictInsert, dictKeys]
    exact h
  | cons q rest ih =>
    intro k k2 v h
    unfold dictInsert
    by_cases he : q.1 = k
    · rw [if_pos he]
      simp [dictKeys] at h ⊢
      cases h with
      | inl h =>
        cases h with
        | inl h => exact Or.inl h
        | inr h => exact Or.inr h
      | inr h => exact Or.inl (by rw [h, he])
    · rw [if_neg he]
      simp [dictKeys] at h ⊢
      cases h with
      | inl h =>
        cases h with
        | inl h => exact Or.inl h
        | inr h =>
          have := ih k k2 v (Or.inl (by simpa [dictKeys] using h))
          simp [dictKeys] at this
          exact Or.inr this
      | inr h =>
        have := ih k k2 v (Or.inr h)
        simp [dictKeys] at this
        exact Or.inr this

theorem foldl_dictInsert_mem_sub {α : Type} :
    ∀ (l : List (Nat × α)) (acc : List (Nat × α)) (p : Nat × α),
      p ∈ l.foldl (fun d sc => dictInsert d sc.1 sc.2) acc → p ∈ acc ∨ p ∈ l := by
  intro l
  induction l with
  | nil => intro acc p h; exact Or.inl h
  | cons q rest ih =>
    intro acc p h
    cases ih (dictInsert acc q.1 q.2) p h with
    | inl h2 =>
      cases dictInsert_mem_sub acc q.1 q.2 p h2 with
      | inl h3 => exact Or.inl h3
      | inr h3 => exact Or.inr (by rw [h3]; exact List.mem_cons_self q rest)
    | inr h2 => exact Or.inr (List.mem_cons_of_mem q h2)

theorem foldl_dictInsert_keys {α : Type} :
    ∀ (l : List (Nat × α)) (acc : List (Nat × α)) (k : Nat),
      k ∈ dictKeys acc ∨ k ∈ l.map Prod.fst →
      k ∈ dictKeys (l.foldl (fun d sc => dictInsert d sc.1 sc.2) acc) := by
  intro l
  induction l with
  | nil =>
    intro acc k h
    cases h with
    | inl h => exact h
    | inr h => simp at h
  | cons q rest ih =>
    intro acc k h
    show k ∈ dictKeys (rest.foldl _ (dictInsert acc q.1 q.2))
    cases h with
    | inl h => exact ih _ k (Or.inl (dictInsert_keys_sub acc q.1 k q.2 (Or.inl h)))
    | inr h =>
      simp at h
      cases h with
      | inl h => exact ih _ k (Or.inl (dictInsert_keys_sub acc q.1 k q.2 (Or.inr h)))
      | inr h => exact ih _ k (Or.inr (by simpa using h))

/-- Looking a symbol up in the `codes` dict yields a walk entry, and every
symbol of the tree is present in the dict. -/
theorem tree_to_codes_spec (root : Node) (s : Nat) :
    (∀ c, dictGet? (tree_to_codes (some root)) s = some c → (s, c) ∈ walkCodes root []) ∧
    (s ∈ root.leafSyms → ∃ c, dictGet? (tree_to_codes (some root)) s = some c) := by
  constructor
  · intro c hc
    have hmem := dictGet?_mem _ s c hc
    have := foldl_dictInsert_mem_sub (walkCodes root []) [] (s, c) hmem
    cases this with
    | inl h => simp at h
    | inr h => exact h
  · intro hs
    obtain ⟨c, hc⟩ := walkCodes_sym_mem root [] s hs
    apply dictGet?_isSome_of_mem
    apply foldl_dictInsert_keys (walkCodes root []) [] s
    right
    exact List.mem_map.2 ⟨(s, c), hc, rfl⟩

/-! # Claim C3: the derived code table is a prefix code -/

/-- C3: for every frequency table with at least two distinct symbols, the
code table derived from the built tree is a prefix code: any two distinct
table symbols have codes, and neither code is a prefix of the other. -/
theorem derived_codes_prefix_free (freqs : List (Nat × Nat)) (h2 : 2 ≤ freqs.length)
    (s1 s2 : Nat) (hs1 : s1 ∈ dictKeys freqs) (hs2 : s2 ∈ dictKeys freqs)
    (hne : s1 ≠ s2) :
    ∃ c1 c2, dictGet? (tree_to_codes (build_tree_from_freq freqs)) s1 = some c1 ∧
      dictGet? (tree_to_codes (build_tree_from_freq freqs)) s2 = some c2 ∧
      isPref c1 c2 = false ∧ isPref c2 c1 = false := by
  obtain ⟨root, hbt, hsyms, _⟩ := build_tree_spec freqs
    (by intro he; rw [he] at h2; simp at h2)
  rw [hbt]
  have hm1 : s1 ∈ root.leafSyms := (hsyms.mem_iff).2 hs1
  have hm2 : s2 ∈ root.leafSyms := (hsyms.mem_iff).2 hs2
  obtain ⟨c1, hc1⟩ := (tree_to_codes_spec root s1).2 hm1
  obtain ⟨c2, hc2⟩ := (tree_to_codes_spec root s2).2 hm2
  have hw1 : (s1, c1) ∈ walkCodes root [] := (tree_to_codes_spec root s1).1 c1 hc1
  have hw2 : (s2, c2) ∈ walkCodes root [] := (tree_to_codes_spec root s2).1 c2 hc2
  refine ⟨c1, c2, hc1, hc2, ?_, ?_⟩
  · by_contra hcon
    rw [Bool.not_eq_false] at hcon
    have hceq : c1 = c2 := walkCodes_pref_eq root [] s1 c1 s2 c2 hw1 hw2 hcon
    subst hceq
    exact hne (walkCodes_code_inj root [] s1 s2 c1 hw1 hw2)
  · by_contra hcon
    rw [Bool.not_eq_false] at hcon
    have hceq : c2 = c1 := walkCodes_pref_eq root [] s2 c2 s1 c1 hw2 hw1 hcon
    subst hceq
    exact hne (walkCodes_code_inj root [] s1 s2 c2 hw1 hw2)

/-- Witness for C3 at the table `{65: 1, 66: 1}` and the symbol pair
`(65, 66)`. -/
theorem derived_codes_prefix_free_witness :
    ∃ c1 c2, dictGet? (tree_to_codes (build_tree_from_freq [(65, 1), (66, 1)])) 65 =
        some c1 ∧
      dictGet? (tree_to_codes (build_tree_from_freq [(65, 1), (66, 1)])) 66 = some c2 ∧
      isPref c1 c2 = false ∧ isPref c2 c1 = false :=
  derived_codes_prefix_free [(65, 1), (66, 1)] (by decide) 65 66 (by decide) (by decide)
    (by decide)

/-! # Lemmas: the decoder -/

theorem decodeLoop_succ (root : Node) (expected fuel : Nat) (node : Node) (r : BitReader)
    (out : List Nat) :
    decodeLoop root expected (fuel + 1) node r out =
      (if out.length < expected then
        match r.read_bit with
        | (none, _) => .ok out
        | (some bit, r2) =>
          match node with
          | .leaf _ _ => .error "NoneType has no attribute is_leaf"
          | .internal _ l rt =>
            let child := if bit = 1 then rt else l
            if child.is_leaf then
              decodeLoop root expected fuel root r2 (out ++ [child.symbol])
            else decodeLoop root expected fuel child r2 out
      else .ok out) := rfl

theorem decodeLoop_succ_none (root : Node) (expected fuel : Nat) (node : Node)
    (r r2 : BitReader) (out : List Nat) (hread : r.read_bit = (none, r2)) :
    decodeLoop root expected (fuel + 1) node r out = .ok out := by
  rw [decodeLoop_succ, hread]
  split <;> rfl

theorem decodeLoop_succ_leaf (root : Node) (expected fuel fq s : Nat) (r r2 : BitReader)
    (bit : Nat) (out : List Nat) (hread : r.read_bit = (some bit, r2)) :
    decodeLoop root expected (fuel + 1) (.leaf fq s) r out =
      (if out.length < expected then .error "NoneType has no attribute is_leaf"
      else .ok out) := by
  rw [decodeLoop_succ, hread]

theorem decodeLoop_succ_internal (root : Node) (expected fuel fq : Nat) (l rt : Node)
    (r r2 : BitReader) (bit : Nat) (out : List Nat) (hread : r.read_bit = (some bit, r2)) :
    decodeLoop root expected (fuel + 1) (.internal fq l rt) r out =
      (if out.length < expected then
        (if (if bit = 1 then rt else l).is_leaf then
          decodeLoop root expected fuel root r2 (out ++ [(if bit = 1 then rt else l).symbol])
        else decodeLoop root expected fuel (if bit = 1 then rt else l) r2 out)
      else .ok out) := by
  rw [decodeLoop_succ, hread]

theorem decodeBits_nil (root : Node) (expected : Nat) (node : Node) (out : List Nat) :
    decodeBits root expected node [] out = .ok out := by
  unfold decodeBits
  split <;> rfl

theorem decodeBits_cons_leaf (root : Node) (expected fq s b : Nat) (bs out : List Nat) :
    decodeBits root expected (.leaf fq s) (b :: bs) out =
      (if out.length < expected then .error "NoneType has no attribute is_leaf"
      else .ok out) := rfl

theorem decodeBits_cons_internal (root : Node) (expected fq : Nat) (l rt : Node) (b : Nat)
    (bs out : List Nat) :
    decodeBits root expected (.internal fq l rt) (b :: bs) out =
      (if out.length < expected then
        (if (if b = 1 then rt else l).is_leaf then
          decodeBits root expected root bs (out ++ [(if b = 1 then rt else l).symbol])
        else decodeBits root expected (if b = 1 then rt else l) bs out)
      else .ok out) := rfl

/-- The byte-backed decoding loop agrees with the pure bit-list decoder as
long as the fuel covers the bits remaining in the reader. -/
theorem decodeLoop_eq_decodeBits (root : Node) (expected : Nat) :
    ∀ (bits : List Nat) (fuel : Nat) (node : Node) (r : BitReader) (out : List Nat),
      readerBits r = bits → bits.length ≤ fuel →
      decodeLoop root expected fuel node r out = decodeBits root expected node bits out := by
  intro bits
  induction bits with
  | nil =>
    intro fuel node r out hrb _
    rw [decodeBits_nil]
    cases fuel with
    | zero => rfl
    | succ f => exact decodeLoop_succ_none root expected f node r r out (read_bit_of_nil r hrb)
  | cons b bs ih =>
    intro fuel node r out hrb hf
    cases fuel with
    | zero => simp at hf
    | succ f =>
      obtain ⟨r2, hread, hr2, _⟩ := read_bit_of_cons r b bs hrb
      cases node with
      | leaf fq s =>
        rw [decodeLoop_succ_leaf root expected f fq s r r2 b out hread,
          decodeBits_cons_leaf]
      | internal fq l rt =>
        rw [decodeLoop_succ_internal root expected f fq l rt r r2 b out hread,
          decodeBits_cons_internal]
        by_cases ho : out.length < expected
        · rw [if_pos ho, if_pos ho]
          by_cases hc : (if b = 1 then rt else l).is_leaf
          · rw [if_pos hc, if_pos hc]
            exact ih f root r2 (out ++ [(if b = 1 then rt else l).symbol]) hr2
              (by simpa using hf)
          · rw [if_neg hc, if_neg hc]
            exact ih f (if b = 1 then rt else l) r2 out hr2 (by simpa using hf)
        · rw [if_neg ho, if_neg ho]

/-- The decoder never emits more than `expected` symbols. -/
theorem decodeBits_length_le (root : Node) (expected : Nat) :
    ∀ (bits : List Nat) (node : Node) (out res : List Nat),
      out.length ≤ expected → decodeBits root expected node bits out = .ok res →
      res.length ≤ expected := by
  intro bits
  induction bits with
  | nil =>
    intro node out res hle h
    rw [decodeBits_nil] at h
    cases h
    exact hle
  | cons b bs ih =>
    intro node out res hle h
    by_cases ho : out.length < expected
    · cases node with
      | leaf fq s =>
        rw [decodeBits_cons_leaf, if_pos ho] at h
        exact absurd h (by simp)
      | internal fq l rt =>
        rw [decodeBits_cons_internal, if_pos ho] at h
        by_cases hc : (if b = 1 then rt else l).is_leaf
        · rw [if_pos hc] at h
          exact ih root (out ++ [(if b = 1 then rt else l).symbol]) res (by simp; omega) h
        · rw [if_neg hc] at h
          exact ih (if b = 1 then rt else l) out res hle h
    · cases node with
      | leaf fq s =>
        rw [decodeBits_cons_leaf, if_neg ho] at h
        cases h
        exact hle
      | internal fq l rt =>
        rw [decodeBits_cons_internal, if_neg ho] at h
        cases h
        exact hle

/-- Starting from an internal node of a tree with an internal root, the
decoder never raises: the walk only errors on stepping off a leaf, and the
current node is the root or an internal child at every iteration. -/
theorem decodeBits_ok (root : Node) (expected : Nat) :
    ∀ (bits : List Nat) (node : Node) (out : List Nat), node.is_leaf = false →
      root.is_leaf = false →
      ∃ res, decodeBits root expected node bits out = .ok res := by
  intro bits
  induction bits with
  | nil =>
    intro node out _ _
    exact ⟨out, decodeBits_nil ..⟩
  | cons b bs ih =>
    intro node out hn hr
    cases node with
    | leaf fq s => simp [Node.is_leaf] at hn
    | internal fq l rt =>
      by_cases ho : out.length < expected
      · by_cases hc : (if b = 1 then rt else l).is_leaf
        · obtain ⟨res, hres⟩ := ih root (out ++ [(if b = 1 then rt else l).symbol]) hr hr
          exact ⟨res, by rw [decodeBits_cons_internal, if_pos ho, if_pos hc]; exact hres⟩
        · obtain ⟨res, hres⟩ := ih (if b = 1 then rt else l) out (by simpa using hc) hr
          exact ⟨res, by rw [decodeBits_cons_internal, if_pos ho, if_neg hc]; exact hres⟩
      · exact ⟨out, by rw [decodeBits_cons_internal, if_neg ho]⟩

theorem walkCodes_navigate : ∀ (t : Node) (px : List Nat) (s : Nat) (c : List Nat),
    px ≠ [] → (s, c) ∈ walkCodes t px →
    ∃ c2 fq, c = px ++ c2 ∧ navigate t c2 = some (.leaf fq s) := by
  intro t
  induction t with
  | leaf f sym =>
    intro px s c hpx h
    have hie : px.isEmpty = false := by
      cases px with
      | nil => exact absurd rfl hpx
      | cons a l => rfl
    simp [walkCodes, hie] at h
    exact ⟨[], f, by simp [h.2], by simp [navigate, h.1]⟩
  | internal f l r ihl ihr =>
    intro px s c hpx h
    simp only [walkCodes, List.mem_append] at h
    cases h with
    | inl h =>
      obtain ⟨c2, fq, hc, hnav⟩ := ihl (px ++ [0]) s c (by simp) h
      refine ⟨0 :: c2, fq, by simp [hc], ?_⟩
      show navigate (if (0 : Nat) = 1 then r else l) c2 = some (.leaf fq s)
      rw [if_neg (by omega)]
      exact hnav
    | inr h =>
      obtain ⟨c2, fq, hc, hnav⟩ := ihr (px ++ [1]) s c (by simp) h
      refine ⟨1 :: c2, fq, by simp [hc], ?_⟩
      show navigate (if (1 : Nat) = 1 then r else l) c2 = some (.leaf fq s)
      rw [if_pos rfl]
      exact hnav

theorem walkCodes_root_navigate (f : Nat) (l r : Node) (s : Nat) (c : List Nat)
    (h : (s, c) ∈ walkCodes (.internal f l r) []) :
    ∃ fq, navigate (.internal f l r) c = some (.leaf fq s) ∧ c ≠ [] := by
  simp only [walkCodes, List.nil_append, List.mem_append] at h
  cases h with
  | inl h =>
    obtain ⟨c2, fq, hc, hnav⟩ := walkCodes_navigate l [0] s c (by simp) h
    refine ⟨fq, ?_, by rw [hc]; simp⟩
    rw [hc]
    show navigate (if (0 : Nat) = 1 then r else l) c2 = some (.leaf fq s)
    rw [if_neg (by omega)]
    exact hnav
  | inr h =>
    obtain ⟨c2, fq, hc, hnav⟩ := walkCodes_navigate r [1] s c (by simp) h
    refine ⟨fq, ?_, by rw [hc]; simp⟩
    rw [hc]
    show navigate (if (1 : Nat) = 1 then r else l) c2 = some (.leaf fq s)
    rw [if_pos rfl]
    exact hnav

/-- Decoding the path bits of one leaf emits that leaf symbol and resumes
at the root. -/
theorem decodeBits_code (root : Node) (expected : Nat) :
    ∀ (c : List Nat) (t : Node) (fq s : Nat) (restBits out : List Nat),
      navigate t c = some (.leaf fq s) → c ≠ [] → out.length < expected →
      decodeBits root expected t (c ++ restBits) out =
        decodeBits root expected root restBits (out ++ [s]) := by
  intro c
  induction c with
  | nil => intro t fq s restBits out _ hne _; exact absurd rfl hne
  | cons b cs ih =>
    intro t fq s restBits out hnav _ hout
    cases t with
    | leaf f2 s2 => exact absurd hnav (by simp [navigate])
    | internal f2 l rt =>
      have hnav2 : navigate (if b = 1 then rt else l) cs = some (.leaf fq s) := hnav
      rw [show (b :: cs) ++ restBits = b :: (cs ++ restBits) from rfl,
        decodeBits_cons_internal, if_pos hout]
      cases cs with
      | nil =>
        have hchild : (if b = 1 then rt else l) = .leaf fq s := by
          simpa [navigate] using hnav2
        rw [hchild]
        show decodeBits root expected root ([] ++ restBits) (out ++ [s]) = _
        rw [List.nil_append]
      | cons b2 cs2 =>
        have hnl : (if b = 1 then rt else l).is_leaf = false := by
          cases hcc : (if b = 1 then rt else l) with
          | leaf f3 s3 => rw [hcc] at hnav2; exact absurd hnav2 (by simp [navigate])
          | internal f3 l3 r3 => rfl
        rw [if_neg (by rw [hnl]; exact Bool.false_ne_true)]
        exact ih (if b = 1 then rt else l) fq s restBits out hnav2 (by simp) hout

/-- Decoding the concatenated codes of a symbol list (followed by anything,
e.g. flush padding) emits exactly that list: the walk stops at
`expected` symbols and never reads the padding. -/
theorem decodeBits_encode (root : Node) (expected : Nat) (codes : List (Nat × List Nat))
    (hwalk : ∀ s c, dictGet? codes s = some c →
      ∃ fq, navigate root c = some (.leaf fq s) ∧ c ≠ []) :
    ∀ (ds out padBits : List Nat), out.length + ds.length = expected →
      (∀ d ∈ ds, (dictGet? codes d).isSome) →
      decodeBits root expected root (encodeData codes ds ++ padBits) out =
        .ok (out ++ ds) := by
  intro ds
  induction ds with
  | nil =>
    intro out padBits hlen _
    simp only [List.length_nil] at hlen
    have hB : decodeBits root expected root (encodeData codes [] ++ padBits) out =
        .ok out := by
      show decodeBits root expected root ([] ++ padBits) out = .ok out
      cases hpb : ([] : List Nat) ++ padBits with
      | nil => exact decodeBits_nil ..
      | cons pb pbs =>
        cases root with
        | leaf f2 s2 =>
          rw [decodeBits_cons_leaf, if_neg (by omega)]
        | internal f2 l rt =>
          rw [decodeBits_cons_internal, if_neg (by omega)]
    rw [hB]
    simp
  | cons d rest ih =>
    intro out padBits hlen hsome
    simp only [List.length_cons] at hlen
    have hdsome : (dictGet? codes d).isSome := hsome d (by simp)
    obtain ⟨c, hc⟩ := Option.isSome_iff_exists.mp hdsome
    obtain ⟨fq, hnav, hcne⟩ := hwalk d c hc
    have henc : encodeData codes (d :: rest) = c ++ encodeData codes rest := by
      show (dictGet? codes d).getD [] ++ encodeData codes rest = _
      rw [hc]
      rfl
    rw [henc, List.append_assoc,
      decodeBits_code root expected c root fq d (encodeData codes rest ++ padBits) out hnav
        hcne (by omega)]
    have hstep := ih (out ++ [d]) padBits
      (by simp only [List.length_append, List.length_singleton]; omega)
      (fun x hx => hsome x (by simp [hx]))
    rw [hstep]
    simp

/-! # Lemmas: the frequency counter -/

theorem sumValues_foldl : ∀ (d : List (Nat × Nat)) (a : Nat),
    List.foldl (fun a p => a + p.2) a d = a + sumValues d := by
  intro d
  induction d with
  | nil => intro a; simp [sumValues]
  | cons p rest ih =>
    intro a
    show List.foldl _ (a + p.2) rest = a + sumValues (p :: rest)
    rw [ih (a + p.2)]
    show _ = a + List.foldl _ (0 + p.2) rest
    rw [ih (0 + p.2)]
    omega

theorem sumValues_cons (p : Nat × Nat) (d : List (Nat × Nat)) :
    sumValues (p :: d) = p.2 + sumValues d := by
  show List.foldl _ (0 + p.2) d = _
  rw [sumValues_foldl]
  omega

theorem counterAdd_keys (b : Nat) : ∀ (d : List (Nat × Nat)),
    dictKeys (counterAdd d b) =
      if b ∈ dictKeys d then dictKeys d else dictKeys d ++ [b] := by
  intro d
  induction d with
  | nil => simp [counterAdd, dictKeys]
  | cons p rest ih =>
    show dictKeys (if p.1 = b then (p.1, p.2 + 1) :: rest else (p.1, p.2) :: counterAdd rest b) = _
    by_cases he : p.1 = b
    · rw [if_pos he, if_pos (by simp [dictKeys, he])]
      rfl
    · rw [if_neg he]
      show p.1 :: dictKeys (counterAdd rest b) = _
      rw [ih]
      by_cases hm : b ∈ dictKeys rest
      · rw [if_pos hm, if_pos (by simp [dictKeys]; exact Or.inr (by simpa [dictKeys] using hm))]
        rfl
      · rw [if_neg hm, if_neg (by
          show ¬ b ∈ p.1 :: dictKeys rest
          intro hc
          rcases List.mem_cons.mp hc with h | h
          · exact he h.symm
          · exact hm h)]
        rfl

theorem counterAdd_sum : ∀ (d : List (Nat × Nat)) (b : Nat),
    sumValues (counterAdd d b) = sumValues d + 1 := by
  intro d
  induction d with
  | nil =>
    intro b
    show sumValues [(b, 1)] = sumValues [] + 1
    rw [sumValues_cons]
    rfl
  | cons p rest ih =>
    intro b
    show sumValues (if p.1 = b then (p.1, p.2 + 1) :: rest else (p.1, p.2) :: counterAdd rest b) = _
    by_cases he : p.1 = b
    · rw [if_pos he, sumValues_cons, sumValues_cons]
      omega
    · rw [if_neg he, sumValues_cons, ih b, sumValues_cons]
      omega

theorem counterAdd_pos : ∀ (d : List (Nat × Nat)) (b : Nat) (p : Nat × Nat),
    (∀ q ∈ d, 0 < q.2) → p ∈ counterAdd d b → 0 < p.2 := by
  intro d
  induction d with
  | nil =>
    intro b p _ hp
    simp [counterAdd] at hp
    rw [hp]
    omega
  | cons q rest ih =>
    intro b p hq hp
    have hsp : p ∈ (if q.1 = b then (q.1, q.2 + 1) :: rest
        else (q.1, q.2) :: counterAdd rest b) := hp
    by_cases he : q.1 = b
    · rw [if_pos he] at hsp
      cases hsp with
      | head => show 0 < q.2 + 1; omega
      | tail _ hsp => exact hq p (List.mem_cons_of_mem q hsp)
    · rw [if_neg he] at hsp
      cases hsp with
      | head => exact hq q (List.mem_cons_self q rest)
      | tail _ hsp => exact ih b p (fun r hr => hq r (List.mem_cons_of_mem q hr)) hsp

theorem counterAdd_keys_mem (acc : List (Nat × Nat)) (x b : Nat) :
    b ∈ dictKeys (counterAdd acc x) ↔ b ∈ dictKeys acc ∨ b = x := by
  rw [counterAdd_keys]
  by_cases hm : x ∈ dictKeys acc
  · rw [if_pos hm]
    constructor
    · exact Or.inl
    · intro h
      cases h with
      | inl h => exact h
      | inr h => exact h ▸ hm
  · rw [if_neg hm]
    simp

theorem counter_fold_spec : ∀ (data : List Nat) (acc : List (Nat × Nat)),
    (dictKeys acc).Nodup → (∀ p ∈ acc, 0 < p.2) →
    (dictKeys (data.foldl counterAdd acc)).Nodup ∧
    sumValues (data.foldl counterAdd acc) = sumValues acc + data.length ∧
    (∀ b, b ∈ dictKeys (data.foldl counterAdd acc) ↔ b ∈ dictKeys acc ∨ b ∈ data) ∧
    (∀ p ∈ data.foldl counterAdd acc, 0 < p.2) := by
  intro data
  induction data with
  | nil =>
    intro acc h1 h2
    exact ⟨h1, by simp, fun b => by simp, h2⟩
  | cons x rest ih =>
    intro acc h1 h2
    have hnd2 : (dictKeys (counterAdd acc x)).Nodup := by
      rw [counterAdd_keys]
      by_cases hm : x ∈ dictKeys acc
      · rw [if_pos hm]; exact h1
      · rw [if_neg hm, List.nodup_append]
        exact ⟨h1, List.nodup_singleton x, by
          intro a ha hax
          simp at hax
          exact hm (hax ▸ ha)⟩
    have hpos2 : ∀ p ∈ counterAdd acc x, 0 < p.2 := fun p hp => counterAdd_pos acc x p h2 hp
    obtain ⟨i1, i2, i3, i4⟩ := ih (counterAdd acc x) hnd2 hpos2
    refine ⟨i1, ?_, ?_, i4⟩
    · show sumValues (rest.foldl counterAdd (counterAdd acc x)) = _
      rw [i2, counterAdd_sum]
      simp
      omega
    · intro b
      show b ∈ dictKeys (rest.foldl counterAdd (counterAdd acc x)) ↔ _
      rw [i3 b, counterAdd_keys_mem]
      simp
      tauto

theorem counter_spec (data : List Nat) :
    (dictKeys (counter data)).Nodup ∧ sumValues (counter data) = data.length ∧
    (∀ b, b ∈ dictKeys (counter data) ↔ b ∈ data) ∧
    (∀ p ∈ counter data, 0 < p.2) := by
  obtain ⟨h1, h2, h3, h4⟩ := counter_fold_spec data [] (by simp [dictKeys]) (by simp)
  refine ⟨h1, by simpa [sumValues] using h2, fun b => ?_, h4⟩
  show b ∈ dictKeys (data.foldl counterAdd []) ↔ b ∈ data
  rw [h3 b]
  simp [dictKeys]

theorem mem_le_sumValues : ∀ (d : List (Nat × Nat)) (p : Nat × Nat), p ∈ d →
    p.2 ≤ sumValues d := by
  intro d
  induction d with
  | nil => intro p hp; simp at hp
  | cons q rest ih =>
    intro p hp
    rw [sumValues_cons]
    cases hp with
    | head => omega
    | tail _ hp => have := ih p hp; omega

theorem counter_single (data : List Nat) (s n : Nat) (h : counter data = [(s, n)]) :
    data = List.replicate n s ∧ n = data.length := by
  obtain ⟨_, hsum, hmem, _⟩ := counter_spec data
  rw [h] at hsum hmem
  have hn : n = data.length := by
    rw [sumValues_cons] at hsum
    simp [sumValues] at hsum
    omega
  refine ⟨?_, hn⟩
  rw [List.eq_replicate]
  refine ⟨hn.symm, ?_⟩
  intro b hb
  have := (hmem b).mpr hb
  simpa [dictKeys] using this

/-! # Claim C5: decompression is total once the metadata parses — corrected:
the code additionally rejects an empty parsed table -/

/-- C5 counterexample: the blob `[0x00, 0x00]` is non-empty and its
metadata region (a zero count, no entries) is fully readable, yet
`decompress_bytes` raises an error instead of returning. -/
theorem decompress_rejects_empty_table :
    unpack_metadata [0, 0] = .ok ([], 2) ∧
    decompress_bytes [0, 0] =
      .error "Invalid compressed data: no frequency table found" := by
  constructor <;> rfl

theorem unpack_ok_ge_two {data : List Nat} {freqs : List (Nat × Nat)} {pos : Nat}
    (hu : unpack_metadata data = .ok (freqs, pos)) : 2 ≤ data.length := by
  unfold unpack_metadata at hu
  by_cases h2 : data.length < 2
  · rw [if_pos h2] at hu
    exact absurd hu (by simp)
  · omega

/-- C5 (amended): for every blob from which the metadata region is fully
readable *into a non-empty frequency table*, `decompress_bytes` returns
without error, and the output length is bounded by `expected_size`, the sum
of the table's frequencies.  (The decoder itself always terminates: it is a
total function.)  The amendment is forced by `[0x00, 0x00]`: a fully
readable metadata region declaring zero symbols is rejected with an
invalid-data error rather than decoded to the empty output. -/
theorem decompress_total_on_parsed_metadata (data : List Nat)
    (freqs : List (Nat × Nat)) (pos : Nat)
    (hu : unpack_metadata data = .ok (freqs, pos)) (hne : freqs ≠ []) :
    ∃ out, decompress_bytes data = .ok out ∧ out.length ≤ sumValues freqs := by
  have hlen2 : 2 ≤ data.length := unpack_ok_ge_two hu
  have hie : data.isEmpty = false := by
    cases data with
    | nil => simp at hlen2
    | cons a l => rfl
  have hfie : freqs.isEmpty = false := by
    cases freqs with
    | nil => exact absurd rfl hne
    | cons p l => rfl
  have hd1 : decompress_bytes data =
      (if freqs.isEmpty then .error "Invalid compressed data: no frequency table found"
      else if freqs.length = 1 then
        .ok (List.replicate (freqs.getD 0 (0, 0)).2 (freqs.getD 0 (0, 0)).1)
      else
        match build_tree_from_freq freqs with
        | none => .ok []
        | some root =>
          decodeLoop root (sumValues freqs) ((data.length - pos) * 8) root
            (BitReader.mk data pos 0 0) []) := by
    show (if data.isEmpty then _ else _) = _
    rw [if_neg (by rw [hie]; exact Bool.false_ne_true), hu]
    rfl
  rw [hd1, if_neg (by rw [hfie]; exact Bool.false_ne_true)]
  by_cases h1 : freqs.length = 1
  · rw [if_pos h1]
    obtain ⟨p, hp⟩ := List.length_eq_one.mp h1
    refine ⟨List.replicate (freqs.getD 0 (0, 0)).2 (freqs.getD 0 (0, 0)).1, rfl, ?_⟩
    rw [hp]
    show (List.replicate p.2 p.1).length ≤ sumValues [p]
    rw [List.length_replicate, sumValues_cons]
    omega
  · rw [if_neg h1]
    obtain ⟨root, hbt, _, hint⟩ := build_tree_spec freqs hne
    have hfl2 : 2 ≤ freqs.length := by
      cases freqs with
      | nil => exact absurd rfl hne
      | cons p l =>
        cases l with
        | nil => exact absurd rfl h1
        | cons q m => simp
    obtain ⟨fq, lt, rt, hroot⟩ := hint hfl2
    rw [hbt]
    show ∃ out, decodeLoop root (sumValues freqs) ((data.length - pos) * 8) root
      (BitReader.mk data pos 0 0) [] = .ok out ∧ out.length ≤ sumValues freqs
    have hbridge := decodeLoop_eq_decodeBits root (sumValues freqs)
      (readerBits (BitReader.mk data pos 0 0)) ((data.length - pos) * 8) root
      (BitReader.mk data pos 0 0) [] rfl
      (by rw [readerBits_length]; simp; omega)
    rw [hbridge]
    have hrl : root.is_leaf = false := by rw [hroot]; rfl
    obtain ⟨res, hres⟩ := decodeBits_ok root (sumValues freqs)
      (readerBits (BitReader.mk data pos 0 0)) root [] hrl hrl
    refine ⟨res, hres, ?_⟩
    exact decodeBits_length_le root (sumValues freqs) _ root [] res (by simp) hres

/-- Witness for C5 at a 20-byte blob declaring the table `{65: 1, 66: 1}`
with an empty (truncated) payload: decompression succeeds and emits at most
2 bytes. -/
theorem decompress_total_on_parsed_metadata_witness :
    ∃ out, decompress_bytes
        [0, 2, 65, 0, 0, 0, 0, 0, 0, 0, 1, 66, 0, 0, 0, 0, 0, 0, 0, 1] = .ok out ∧
      out.length ≤ sumValues [(65, 1), (66, 1)] :=
  decompress_total_on_parsed_metadata
    [0, 2, 65, 0, 0, 0, 0, 0, 0, 0, 1, 66, 0, 0, 0, 0, 0, 0, 0, 1]
    [(65, 1), (66, 1)] 20 (by rfl) (by decide)

/-! # Lemmas: the compressor writes the concatenated code bits -/

theorem writeCode_eq_writeBits : ∀ (code : List Nat) (bw : BitWriter),
    (∀ x ∈ code, x < 2) → writeCode bw code = writeBits bw code := by
  intro code
  induction code with
  | nil => intro bw _; rfl
  | cons ch rest ih =>
    intro bw hlt
    show writeCode (bw.write_bit (if ch = 1 then 1 else 0)) rest =
      writeBits (bw.write_bit ch) rest
    have hch : (if ch = 1 then 1 else 0) = ch := by
      have := hlt ch (by simp)
      interval_cases ch
      · rw [if_neg (by omega)]
      · rw [if_pos rfl]
    rw [hch]
    exact ih (bw.write_bit ch) (fun x hx => hlt x (by simp [hx]))

theorem writeData_eq (codes : List (Nat × List Nat))
    (hbits : ∀ d c, dictGet? codes d = some c → ∀ x ∈ c, x < 2) :
    ∀ (ds : List Nat) (bw : BitWriter), (∀ d ∈ ds, (dictGet? codes d).isSome) →
      writeData codes bw ds = .ok (writeBits bw (encodeData codes ds)) := by
  intro ds
  induction ds with
  | nil => intro bw _; rfl
  | cons d rest ih =>
    intro bw hsome
    obtain ⟨c, hc⟩ := Option.isSome_iff_exists.mp (hsome d (by simp))
    have hstep : writeData codes bw (d :: rest) = writeData codes (writeCode bw c) rest := by
      show (match dictGet? codes d with
        | none => Except.error "KeyError"
        | some code => writeData codes (writeCode bw code) rest) = _
      rw [hc]
    rw [hstep, ih (writeCode bw c) (fun x hx => hsome x (by simp [hx]))]
    have henc : encodeData codes (d :: rest) = c ++ encodeData codes rest := by
      show (dictGet? codes d).getD [] ++ encodeData codes rest = _
      rw [hc]
      rfl
    rw [henc, writeCode_eq_writeBits c bw (hbits d c hc)]
    show _ = .ok (List.foldl BitWriter.write_bit bw (c ++ encodeData codes rest))
    rw [List.foldl_append]
    rfl

theorem walkCodes_bits : ∀ (t : Node) (px : List Nat), (∀ x ∈ px, x < 2) →
    ∀ (s : Nat) (c : List Nat), (s, c) ∈ walkCodes t px → ∀ x ∈ c, x < 2 := by
  intro t
  induction t with
  | leaf f sym =>
    intro px hpx s c h x hx
    simp [walkCodes] at h
    rw [h.2] at hx
    by_cases hie : px = []
    · rw [if_pos hie] at hx
      simp at hx
      omega
    · rw [if_neg hie] at hx
      exact hpx x hx
  | internal f l r ihl ihr =>
    intro px hpx s c h x hx
    simp only [walkCodes, List.mem_append] at h
    cases h with
    | inl h =>
      refine ihl (px ++ [0]) ?_ s c h x hx
      intro y hy
      rcases List.mem_append.mp hy with hy | hy
      · exact hpx y hy
      · simp at hy; omega
    | inr h =>
      refine ihr (px ++ [1]) ?_ s c h x hx
      intro y hy
      rcases List.mem_append.mp hy with hy | hy
      · exact hpx y hy
      · simp at hy; omega

theorem encodeData_bits (codes : List (Nat × List Nat))
    (hbits : ∀ d c, dictGet? codes d = some c → ∀ x ∈ c, x < 2) :
    ∀ (ds : List Nat), (∀ d ∈ ds, (dictGet? codes d).isSome) →
      ∀ x ∈ encodeData codes ds, x < 2 := by
  intro ds
  induction ds with
  | nil => intro _ x hx; simp [encodeData] at hx
  | cons d rest ih =>
    intro hsome x hx
    obtain ⟨c, hc⟩ := Option.isSome_iff_exists.mp (hsome d (by simp))
    have henc : encodeData codes (d :: rest) = c ++ encodeData codes rest := by
      show (dictGet? codes d).getD [] ++ encodeData codes rest = _
      rw [hc]
      rfl
    rw [henc] at hx
    rcases List.mem_append.mp hx with hx | hx
    · exact hbits d c hc x hx
    · exact ih (fun y hy => hsome y (by simp [hy])) x hx

/-! # Claim C1: the compress/decompress round-trip -/

/-- C1: for every non-empty byte sequence `d` (of length below `2^64`, the
cap the format's 8-byte frequency fields place on counts), decompressing
the blob produced by `compress_bytes d` returns exactly `d`.  This covers
ASCII text, inputs with all 256 byte values, repetitive runs and raw UTF-8
bytes alike: the only assumptions are non-emptiness and byte range. -/
theorem compress_decompress_roundtrip (data : List Nat) (hne : data ≠ [])
    (hbyte : ∀ b ∈ data, b < 256) (hlen : data.length < 2 ^ 64) :
    ∃ blob stats, compress_bytes data = .ok (blob, stats) ∧
      decompress_bytes blob = .ok data := by
  obtain ⟨hnd, hsum, hmem, hposi⟩ := counter_spec data
  have hie : data.isEmpty = false := by
    cases data with
    | nil => exact absurd rfl hne
    | cons a l => rfl
  have hkv : ∀ p ∈ counter data, p.1 < 256 ∧ p.2 < 2 ^ 64 := by
    intro p hp
    refine ⟨?_, ?_⟩
    · exact hbyte p.1 ((hmem p.1).mp (List.mem_map.2 ⟨p, hp, rfl⟩))
    · have := mem_le_sumValues (counter data) p hp
      omega
  have hfne : counter data ≠ [] := by
    intro hc
    have h0 : data.length = 0 := by rw [← hsum, hc]; rfl
    exact hne (List.length_eq_zero.mp h0)
  have hfie : (counter data).isEmpty = false := by
    cases hcc : counter data with
    | nil => exact absurd hcc hfne
    | cons p l => rfl
  by_cases h1 : (counter data).length = 1
  · obtain ⟨p, hp⟩ := List.length_eq_one.mp h1
    obtain ⟨hrep, hn⟩ := counter_single data p.1 p.2 (by rw [hp])
    obtain ⟨meta, hpack, hmlen, hunp⟩ := unpack_pack (counter data) hnd hkv []
    rw [List.append_nil] at hunp
    have hmne : meta.isEmpty = false := by
      cases hmm : meta with
      | nil => rw [hmm] at hmlen; simp only [List.length_nil] at hmlen; omega
      | cons a l => rfl
    refine ⟨meta, ⟨1, true⟩, ?_, ?_⟩
    · show (if data.isEmpty then _ else _) = _
      rw [if_neg (by rw [hie]; exact Bool.false_ne_true), if_pos h1, hpack]
      rfl
    · have hd1 : decompress_bytes meta =
          .ok (List.replicate ((counter data).getD 0 (0, 0)).2
            ((counter data).getD 0 (0, 0)).1) := by
        show (if meta.isEmpty then _ else _) = _
        rw [if_neg (by rw [hmne]; exact Bool.false_ne_true), hunp]
        show (if (counter data).isEmpty then _ else _) = _
        rw [if_neg (by rw [hfie]; exact Bool.false_ne_true), if_pos h1]
      rw [hd1, hp]
      show Except.ok (List.replicate p.2 p.1) = Except.ok data
      rw [hrep]
  · have hfl2 : 2 ≤ (counter data).length := by
      cases hcc : counter data with
      | nil => exact absurd hcc hfne
      | cons q l =>
        cases l with
        | nil => rw [hcc] at h1; simp at h1
        | cons q2 m => simp
    obtain ⟨root, hbt, hsyms, hint⟩ := build_tree_spec (counter data) hfne
    obtain ⟨fq, lt, rt, hroot⟩ := hint hfl2
    have hsome : ∀ d ∈ data,
        (dictGet? (tree_to_codes (build_tree_from_freq (counter data))) d).isSome := by
      intro d hd
      have hk : d ∈ dictKeys (counter data) := (hmem d).mpr hd
      have hls : d ∈ root.leafSyms := hsyms.mem_iff.2 hk
      obtain ⟨c, hc⟩ := (tree_to_codes_spec root d).2 hls
      rw [hbt, hc]
      rfl
    have hwmem : ∀ d c, dictGet? (tree_to_codes (build_tree_from_freq (counter data))) d =
        some c → (d, c) ∈ walkCodes root [] := by
      intro d c hc
      rw [hbt] at hc
      exact (tree_to_codes_spec root d).1 c hc
    have hbits : ∀ d c, dictGet? (tree_to_codes (build_tree_from_freq (counter data))) d =
        some c → ∀ x ∈ c, x < 2 := by
      intro d c hc
      exact walkCodes_bits root [] (by simp) d c (hwmem d c hc)
    have hwalknav : ∀ s c, dictGet? (tree_to_codes (build_tree_from_freq (counter data))) s =
        some c → ∃ fq2, navigate root c = some (.leaf fq2 s) ∧ c ≠ [] := by
      intro s c hc
      obtain ⟨fq2, hnav, hcne⟩ :=
        walkCodes_root_navigate fq lt rt s c (hroot ▸ hwmem s c hc)
      exact ⟨fq2, hroot ▸ hnav, hcne⟩
    obtain ⟨meta, hpack, hmlen, _⟩ := unpack_pack (counter data) hnd hkv []
    have hb0 : BitWriter.init.write_bytes meta = ⟨meta, 0, 0⟩ := by
      show (⟨[] ++ meta, 0, 0⟩ : BitWriter) = _
      rw [List.nil_append]
    have hwd := writeData_eq (tree_to_codes (build_tree_from_freq (counter data))) hbits
      data (⟨meta, 0, 0⟩ : BitWriter) hsome
    obtain ⟨e1, hbuf1, hnb1, heq1⟩ := writeBits_spec
      (encodeData (tree_to_codes (build_tree_from_freq (counter data))) data)
      (⟨meta, 0, 0⟩ : BitWriter) (show (0 : Nat) < 8 by omega)
    obtain ⟨e2, hbuf2, heq2⟩ := flush_spec
      (writeBits (⟨meta, 0, 0⟩ : BitWriter)
        (encodeData (tree_to_codes (build_tree_from_freq (counter data))) data)) hnb1
    have hcur0 : bitsOfCur (⟨meta, 0, 0⟩ : BitWriter).nbits
        (⟨meta, 0, 0⟩ : BitWriter).acc = ([] : List Nat) := rfl
    rw [hcur0, List.nil_append] at heq1
    have hmape : (encodeData (tree_to_codes (build_tree_from_freq (counter data))) data).map
        (fun b => b &&& 1) =
        encodeData (tree_to_codes (build_tree_from_freq (counter data))) data := by
      have hall := encodeData_bits (tree_to_codes (build_tree_from_freq (counter data)))
        hbits data hsome
      have hcong : ∀ b ∈ encodeData (tree_to_codes (build_tree_from_freq (counter data)))
          data, b &&& 1 = b := by
        intro b hb
        rw [Nat.and_one_is_mod]
        exact Nat.mod_eq_of_lt (hall b hb)
      have h2 : (encodeData (tree_to_codes (build_tree_from_freq (counter data))) data).map
          (fun b => b &&& 1) =
          (encodeData (tree_to_codes (build_tree_from_freq (counter data))) data).map
            (fun b => b) := List.map_congr_left hcong
      rw [h2]
      exact List.map_id _
    rw [hmape] at heq1
    have hblob : (writeBits (⟨meta, 0, 0⟩ : BitWriter)
        (encodeData (tree_to_codes (build_tree_from_freq (counter data))) data)).flush.get_bytes
        = meta ++ (e1 ++ e2) := by
      show (writeBits (⟨meta, 0, 0⟩ : BitWriter) _).flush.buffer = _
      rw [hbuf2, hbuf1]
      show meta ++ e1 ++ e2 = _
      rw [List.append_assoc]
    have hpaybits : bitsOfBytes (e1 ++ e2) =
        encodeData (tree_to_codes (build_tree_from_freq (counter data))) data ++
          List.replicate ((8 - (writeBits (⟨meta, 0, 0⟩ : BitWriter)
            (encodeData (tree_to_codes (build_tree_from_freq (counter data))) data)).nbits)
              % 8) 0 := by
      rw [bitsOfBytes_append, heq2, ← List.append_assoc, heq1]
    refine ⟨meta ++ (e1 ++ e2), ⟨(counter data).length, false⟩, ?_, ?_⟩
    · have step1 : compress_bytes data =
          (do
            let meta2 ← pack_metadata (counter data)
            let bw ← writeData (tree_to_codes (build_tree_from_freq (counter data)))
              (BitWriter.init.write_bytes meta2) data
            Except.ok (bw.flush.get_bytes, (⟨(counter data).length, false⟩ : Stats))) := by
        show (if data.isEmpty then _ else _) = _
        rw [if_neg (by rw [hie]; exact Bool.false_ne_true), if_neg h1]
      rw [step1, hpack]
      show (do
          let bw ← writeData (tree_to_codes (build_tree_from_freq (counter data)))
            (BitWriter.init.write_bytes meta) data
          Except.ok (bw.flush.get_bytes, (⟨(counter data).length, false⟩ : Stats)) :
            Except String (List Nat × Stats)) = _
      rw [hb0, hwd]
      show Except.ok ((writeBits (⟨meta, 0, 0⟩ : BitWriter)
          (encodeData (tree_to_codes (build_tree_from_freq (counter data)))
            data)).flush.get_bytes, (⟨(counter data).length, false⟩ : Stats)) = _
      rw [hblob]
    · obtain ⟨meta2, hpack2, hmlen2, hunp2⟩ := unpack_pack (counter data) hnd hkv (e1 ++ e2)
      have hmeq : meta2 = meta := by
        have hh := hpack2.symm.trans hpack
        injection hh
      rw [hmeq] at hunp2
      have hdne : (meta ++ (e1 ++ e2)).isEmpty = false := by
        cases hmm : meta with
        | nil => rw [hmm] at hmlen; simp only [List.length_nil] at hmlen; omega
        | cons a l => rfl
      show (if (meta ++ (e1 ++ e2)).isEmpty then _ else _) = _
      rw [if_neg (by rw [hdne]; exact Bool.false_ne_true), hunp2]
      show (if (counter data).isEmpty then _ else _) = _
      rw [if_neg (by rw [hfie]; exact Bool.false_ne_true), if_neg h1, hbt]
      show decodeLoop root (sumValues (counter data))
        (((meta ++ (e1 ++ e2)).length - (2 + 9 * (counter data).length)) * 8) root
        (BitReader.mk (meta ++ (e1 ++ e2)) (2 + 9 * (counter data).length) 0 0) [] =
        Except.ok data
      have hrb : readerBits
          (BitReader.mk (meta ++ (e1 ++ e2)) (2 + 9 * (counter data).length) 0 0) =
          encodeData (tree_to_codes (build_tree_from_freq (counter data))) data ++
            List.replicate ((8 - (writeBits (⟨meta, 0, 0⟩ : BitWriter)
              (encodeData (tree_to_codes (build_tree_from_freq (counter data)))
                data)).nbits) % 8) 0 := by
        show bitsOfCur 0 0 ++ bitsOfBytes ((meta ++ (e1 ++ e2)).drop
          (2 + 9 * (counter data).length)) = _
        rw [show bitsOfCur 0 0 = ([] : List Nat) from rfl, List.nil_append, ← hmlen,
          drop_len_append]
        exact hpaybits
      rw [decodeLoop_eq_decodeBits root (sumValues (counter data)) _ _ root _ [] rfl
        (by rw [readerBits_length]; simp; omega), hrb,
        decodeBits_encode root (sumValues (counter data))
          (tree_to_codes (build_tree_from_freq (counter data))) hwalknav data [] _
          (by simp [hsum]) hsome]
      rw [List.nil_append]

/-- Witness for C1 at the concrete two-byte input `[65, 66]`. -/
theorem compress_decompress_roundtrip_witness :
    ∃ blob stats, compress_bytes [65, 66] = .ok (blob, stats) ∧
      decompress_bytes blob = .ok [65, 66] :=
  compress_decompress_roundtrip [65, 66] (by decide) (by decide) (by decide)

/-! # Claim C9: compression effectiveness on the skewed input -/

set_option maxRecDepth 1000000 in
/-- C9: on `b'A' * 1000 + b'B' * 100 + b'C' * 10` (1110 input bytes) the
compressor succeeds and the blob is 182 bytes, well below half the input
size (555 bytes): 29 metadata bytes plus 153 payload bytes packing the
1220 code bits (A gets a 1-bit code, B and C 2-bit codes). -/
theorem compression_effective :
    ∃ blob stats, compress_bytes data9 = .ok (blob, stats) ∧
      blob.length = 182 ∧ blob.length < 555 := by
  have hc : counter data9 = [(65, 1000), (66, 100), (67, 10)] := rfl
  have hcodes : tree_to_codes (build_tree_from_freq [(65, 1000), (66, 100), (67, 10)]) =
      [(67, [0, 0]), (66, [0, 1]), (65, [1])] := rfl
  have hnd : (dictKeys [((65 : Nat), (1000 : Nat)), (66, 100), (67, 10)]).Nodup := by
    decide
  have hkv : ∀ p ∈ [((65 : Nat), (1000 : Nat)), (66, 100), (67, 10)],
      p.1 < 256 ∧ p.2 < 2 ^ 64 := by decide
  obtain ⟨meta, hpack, hmlen, _⟩ := unpack_pack [(65, 1000), (66, 100), (67, 10)] hnd hkv []
  have hm29 : meta.length = 29 := by rw [hmlen]; rfl
  have hpackc : pack_metadata (counter data9) = .ok meta := by rw [hc]; exact hpack
  have hbits : ∀ d c, dictGet? (tree_to_codes (build_tree_from_freq (counter data9))) d =
      some c → ∀ x ∈ c, x < 2 := by
    intro d c hcc x hx
    rw [hc, hcodes] at hcc
    have hm := dictGet?_mem _ d c hcc
    simp only [List.mem_cons, List.not_mem_nil, or_false] at hm
    rcases hm with h | h | h <;>
      (simp only [Prod.mk.injEq] at h
       rcases h with ⟨h1, h2⟩
       subst h2
       simp only [List.mem_cons, List.not_mem_nil, or_false] at hx
       omega)
  have hsome : ∀ d ∈ data9,
      (dictGet? (tree_to_codes (build_tree_from_freq (counter data9))) d).isSome := by
    intro d hd
    rw [hc, hcodes]
    have hd' : d ∈ List.replicate 1000 65 ++ List.replicate 100 66 ++
        List.replicate 10 67 := hd
    have hd3 : d = 65 ∨ d = 66 ∨ d = 67 := by
      rcases List.mem_append.mp hd' with h | h
      · rcases List.mem_append.mp h with h2 | h2
        · exact Or.inl (List.eq_of_mem_replicate h2)
        · exact Or.inr (Or.inl (List.eq_of_mem_replicate h2))
      · exact Or.inr (Or.inr (List.eq_of_mem_replicate h))
    rcases hd3 with rfl | rfl | rfl <;> rfl
  have hb0 : BitWriter.init.write_bytes meta = ⟨meta, 0, 0⟩ := by
    show (⟨[] ++ meta, 0, 0⟩ : BitWriter) = _
    rw [List.nil_append]
  have hwd := writeData_eq (tree_to_codes (build_tree_from_freq (counter data9))) hbits
    data9 (⟨meta, 0, 0⟩ : BitWriter) hsome
  obtain ⟨e1, hbuf1, hnb1, heq1⟩ := writeBits_spec
    (encodeData (tree_to_codes (build_tree_from_freq (counter data9))) data9)
    (⟨meta, 0, 0⟩ : BitWriter) (show (0 : Nat) < 8 by omega)
  obtain ⟨e2, hbuf2, heq2⟩ := flush_spec
    (writeBits (⟨meta, 0, 0⟩ : BitWriter)
      (encodeData (tree_to_codes (build_tree_from_freq (counter data9))) data9)) hnb1
  have hElen : (encodeData (tree_to_codes (build_tree_from_freq (counter data9)))
      data9).length = 1220 := by
    rw [hc, hcodes]
    rfl
  have hlen1 := congrArg List.length heq1
  rw [List.length_append, List.length_append, bitsOfBytes_length, bitsOfCur_length,
    bitsOfCur_length, List.length_map, hElen,
    show (⟨meta, 0, 0⟩ : BitWriter).nbits = 0 from rfl] at hlen1
  have hlen2 := congrArg List.length heq2
  rw [bitsOfBytes_length, List.length_append, bitsOfCur_length,
    List.length_replicate] at hlen2
  have hgb : ∀ w : BitWriter, w.get_bytes = w.buffer := fun w => rfl
  have hblen : (writeBits (⟨meta, 0, 0⟩ : BitWriter)
      (encodeData (tree_to_codes (build_tree_from_freq (counter data9)))
        data9)).flush.get_bytes.length = 182 := by
    rw [hgb, hbuf2, hbuf1]
    show ((meta ++ e1) ++ e2).length = 182
    rw [List.length_append, List.length_append, hm29]
    omega
  have hbo : ∀ {α β : Type} (a : α) (f : α → Except String β),
      ((Except.ok a : Except String α) >>= f) = f a := fun a f => rfl
  refine ⟨_, ⟨(counter data9).length, false⟩, ?_, hblen, by omega⟩
  have step1 : compress_bytes data9 =
      (do
        let meta2 ← pack_metadata (counter data9)
        let bw ← writeData (tree_to_codes (build_tree_from_freq (counter data9)))
          (BitWriter.init.write_bytes meta2) data9
        Except.ok (bw.flush.get_bytes, (⟨(counter data9).length, false⟩ : Stats))) := by
    show (if data9.isEmpty then _ else _) = _
    rw [if_neg (show ¬(data9.isEmpty = true) by decide),
      if_neg (show ¬((counter data9).length = 1) by rw [hc]; decide)]
  rw [step1, hpackc, hbo, hb0, hwd, hbo]

end Huffman
